import Mathlib

/-!
Verification of the KV_Database storage engine (Rust sources under kv/).

The development shallowly embeds the Rust code: files become lists of
bytes or lists of records, `HashMap<i64,i64>` becomes an association
list, structs become structures, loops become fuelled or structural
recursion, and every fallible operation (`expect`, `unwrap`, `panic!`,
index out of bounds, `assert!`) returns `Option`/is marked by `none`.
Machine integers `i64` are modelled as `Int` together with explicit
`% 2^64` arithmetic at the serialization boundary; `usize`/`u32`
counters that never overflow in the modelled executions are `Nat`.
-/

/-- A record: a `(key, value)` pair of 64-bit signed integers
(`(i64, i64)` in the source). -/
abbrev Rec := Int × Int

/-- `PAGE_SIZE` from serde.rs. -/
def PAGE_SIZE : Nat := 4096

/-- The 16-byte padding sentinel block `de ad be ef …` from
`pad_page_bytes` / `deserialize_page` (serde.rs). -/
def sentBlock : List Nat :=
  [0xde, 0xad, 0xbe, 0xef, 0xde, 0xad, 0xbe, 0xef,
   0xde, 0xad, 0xbe, 0xef, 0xde, 0xad, 0xbe, 0xef]

/-- Big-endian 8-byte encoding of an `i64` (`i64::to_be_bytes`): the
bytes of the value reduced modulo `2^64`. -/
def toBe8 (x : Int) : List Nat :=
  let n : Nat := (x % (2 ^ 64 : Int)).toNat
  [n / 2 ^ 56 % 256, n / 2 ^ 48 % 256, n / 2 ^ 40 % 256, n / 2 ^ 32 % 256,
   n / 2 ^ 24 % 256, n / 2 ^ 16 % 256, n / 2 ^ 8 % 256, n % 256]

/-- Big-endian decoding of 8 bytes into an `i64`
(`i64::from_be_bytes`): two's complement reading. -/
def fromBe8 (bs : List Nat) : Int :=
  match bs with
  | [b0, b1, b2, b3, b4, b5, b6, b7] =>
      let n : Nat := b0 * 2 ^ 56 + b1 * 2 ^ 48 + b2 * 2 ^ 40 + b3 * 2 ^ 32 +
        b4 * 2 ^ 24 + b5 * 2 ^ 16 + b6 * 2 ^ 8 + b7
      if n < 2 ^ 63 then (n : Int) else (n : Int) - 2 ^ 64
  | _ => 0

/-- The 16-byte encoding of one record inside a page: big-endian key
followed by big-endian value (serde.rs, `serialize_kv_to_file` loop). -/
def encRec (r : Rec) : List Nat := toBe8 r.1 ++ toBe8 r.2

/-- Decoding of one 16-byte chunk of a page into a record
(serde.rs, `deserialize_page` closure over `chunks_exact(16)`). -/
def decRec (b : List Nat) : Rec := (fromBe8 (b.take 8), fromBe8 (b.drop 8))

/-- The record whose 16-byte encoding coincides with the padding
sentinel block. -/
def sentRec : Rec := (fromBe8 (sentBlock.take 8), fromBe8 (sentBlock.drop 8))

/-- `pad_page_bytes` (serde.rs): append 16-byte sentinel blocks until
the length is a multiple of `PAGE_SIZE`. -/
def padPageBytes (bytes : List Nat) : List Nat :=
  bytes ++ (List.replicate
    ((if bytes.length % PAGE_SIZE = 0 then 0
      else PAGE_SIZE - bytes.length % PAGE_SIZE) / 16) sentBlock).flatten

/-- `serialize_kv_to_file` (serde.rs), as the byte sequence appended to
the file: each record's 16-byte encoding in order, then page padding. -/
def serializeKvBytes (kvArr : List Rec) : List Nat :=
  padPageBytes (kvArr.flatMap encRec)

/-- Split a list into consecutive chunks of `n+1` elements (used to
model `chunks_exact(16)` on a buffer whose length is a multiple of 16,
and page-granular views of files). -/
def chunkList (n : Nat) : List α → List (List α)
  | [] => []
  | x :: xs => (x :: xs).take (n + 1) :: chunkList n ((x :: xs).drop (n + 1))
termination_by xs => xs.length
decreasing_by simp; omega

/-- The trimming loop of `deserialize_page` (serde.rs lines 61–64):
starting from the end of the page, drop 16-byte blocks equal to the
padding sentinel. Operating on the 16-byte block decomposition of the
4096-byte page, this removes the maximal sentinel suffix. -/
def trimBlocks (bs : List (List Nat)) : List (List Nat) :=
  (bs.reverse.dropWhile (fun b => b = sentBlock)).reverse

/-- `deserialize_page` (serde.rs) on an in-memory file image: read
exactly `PAGE_SIZE` bytes at `page_offset` (`none` models the fatal
`read_exact` failure), trim trailing sentinel blocks, and decode the
remaining 16-byte chunks as records. -/
def deserialize_page (file : List Nat) (pageOffset : Nat) : Option (List Rec) :=
  let bytes := (file.drop pageOffset).take PAGE_SIZE
  if bytes.length = PAGE_SIZE then
    some ((trimBlocks (chunkList 15 bytes)).map decRec)
  else
    none

/-- Number of pages the serialized form of `kv` occupies
(`metadata(..).len() / PAGE_SIZE` after `serialize_kv_to_file kv`). -/
def numPages (kv : List Rec) : Nat := (kv.length + 255) / 256

/-- Page `i` of a record sequence: records `256·i` through
`min(256·(i+1), len) − 1`. -/
def pageChunk (kv : List Rec) (i : Nat) : List Rec := ((kv.drop (256 * i)).take 256)


/-! ### Association-list model of `HashMap<i64, i64>` -/

/-- `HashMap::get`: the binding of `k`, if present (the value of the
first pair with that key). -/
def mLookup : List Rec → Int → Option Int
  | [], _ => none
  | p :: m, k => if p.1 = k then some p.2 else mLookup m k

/-- `HashMap::insert`: overwrite the binding of `k` (or add it).
Modelled as cons plus removal of the old binding, which has the same
lookup/len behaviour as the hash map. -/
def mInsert (m : List Rec) (k v : Int) : List Rec :=
  (k, v) :: m.filter (fun p => p.1 != k)

/-- `HashMap::entry(k).or_insert(v)`: add the binding only when `k` is
absent. -/
def mOrInsert (m : List Rec) (k v : Int) : List Rec :=
  if (mLookup m k).isSome then m else (k, v) :: m

/-- `HashMap::len` (maps built by the operations above never hold a
key twice). -/
def mLen (m : List Rec) : Nat := m.length

/-! ### Memtable: AVL tree (memtable/node.rs, memtable/tree.rs) -/

/-- `Option<Box<AVLTreeNode>>` from memtable/node.rs: `nil` is `None`;
`node` carries the struct fields `key`, `value`, `height`, `left`,
`right`. -/
inductive AVLTreeNode where
  | nil : AVLTreeNode
  | node (key value : Int) (height : Nat) (left right : AVLTreeNode) : AVLTreeNode
deriving DecidableEq, Repr

/-- `self.left.as_ref().map_or(0, |x| x.height)` pattern. -/
def heightOf : AVLTreeNode → Nat
  | .nil => 0
  | .node _ _ h _ _ => h

/-- `AVLTreeNode::balance_factor` (node.rs): left height minus right
height. The source casts the difference to `i8`; for trees reachable
by inserts the difference fits, so the cast is lossless. -/
def balanceFactor : AVLTreeNode → Int
  | .nil => 0
  | .node _ _ _ l r => (heightOf l : Int) - (heightOf r : Int)

/-- `AVLTreeNode::update_height` (node.rs). -/
def updateHeight : AVLTreeNode → AVLTreeNode
  | .nil => .nil
  | .node k v _ l r => .node k v (1 + max (heightOf l) (heightOf r)) l r

/-- `left_rotate` (tree.rs). On a root without a right child the
source panics ("invalid AVL tree"); that branch is unreachable from
the balancing call sites and is modelled as the identity. -/
def leftRotate : AVLTreeNode → AVLTreeNode
  | .node k v h l (.node rk rv rh rl rr) =>
    updateHeight (.node rk rv rh (updateHeight (.node k v h l rl)) rr)
  | t => t

/-- `right_rotate` (tree.rs); same unreachable-panic convention. -/
def rightRotate : AVLTreeNode → AVLTreeNode
  | .node k v h (.node lk lv lh ll lr) r =>
    updateHeight (.node lk lv lh ll (updateHeight (.node k v h lr r)))
  | t => t

/-- `left_right_rotate` (tree.rs). -/
def leftRightRotate : AVLTreeNode → AVLTreeNode
  | .node k v h l r => rightRotate (.node k v h (leftRotate l) r)
  | .nil => .nil

/-- `right_left_rotate` (tree.rs). -/
def rightLeftRotate : AVLTreeNode → AVLTreeNode
  | .node k v h l r => leftRotate (.node k v h l (rightRotate r))
  | .nil => .nil

/-- `balance_avl_tree` (tree.rs). The `-1..=1` match arm returns the
root; factors `2` and `-2` dispatch on the inserted key against the
child key; other factors panic in the source (unreachable, modelled as
identity). -/
def balanceAvlTree (root : AVLTreeNode) (key : Int) : AVLTreeNode :=
  if -1 ≤ balanceFactor root ∧ balanceFactor root ≤ 1 then root
  else if balanceFactor root = 2 then
    match root with
    | .node _ _ _ (.node lk _ _ _ _) _ =>
      if key < lk then rightRotate root else leftRightRotate root
    | t => t
  else if balanceFactor root = -2 then
    match root with
    | .node _ _ _ _ (.node rk _ _ _ _) =>
      if key > rk then leftRotate root else rightLeftRotate root
    | t => t
  else root

/-- `insert_value` (tree.rs): insert-or-overwrite; the boolean is the
`new_node` flag (`true` iff a fresh node was created). -/
def insertValue : AVLTreeNode → Int → Int → AVLTreeNode × Bool
  | .nil, key, value => (.node key value 1 .nil .nil, true)
  | .node k v h l r, key, value =>
    if key = k then (.node k value h l r, false)
    else if key < k then
      let p := insertValue l key value
      (balanceAvlTree (updateHeight (.node k v h p.1 r)) key, p.2)
    else
      let p := insertValue r key value
      (balanceAvlTree (updateHeight (.node k v h l p.1)) key, p.2)

/-- `get_value` (tree.rs). -/
def getValue : AVLTreeNode → Int → Option Int
  | .nil, _ => none
  | .node k v _ l r, key =>
    if key < k then getValue l key
    else if key > k then getValue r key
    else some v

/-- `scan_tree` (tree.rs): recurse left only when `start < node.key`,
insert the node's pair when it is inside `[start, end]` (via
`HashMap::insert`, which overwrites), always recurse right. -/
def scanTree : AVLTreeNode → Int → Int → List Rec → List Rec
  | .nil, _, _, kvHash => kvHash
  | .node k v _ l r, start, stop, kvHash =>
    let h1 := if start < k then scanTree l start stop kvHash else kvHash
    let h2 := if start ≤ k ∧ k ≤ stop then mInsert h1 k v else h1
    scanTree r start stop h2

/-- `scan_all_tree` (tree.rs): in-order traversal. -/
def scanAllTree : AVLTreeNode → List Rec
  | .nil => []
  | .node k v _ l r => scanAllTree l ++ (k, v) :: scanAllTree r

/-- The in-order key list of a tree (used to state ordering). -/
def treeKeys : AVLTreeNode → List Int
  | .nil => []
  | .node k _ _ l r => treeKeys l ++ k :: treeKeys r

/-- The binary-search-tree ordering invariant: every key in the left
subtree is smaller, every key in the right subtree larger. All trees
reachable by `AVLTree::put` from the empty tree satisfy it. -/
def orderedB : AVLTreeNode → Bool
  | .nil => true
  | .node k _ _ l r =>
    orderedB l && orderedB r && (treeKeys l).all (fun x => x < k) &&
      (treeKeys r).all (fun x => k < x)

/-- The `AVLTree` struct (tree.rs): root plus record count. -/
structure AVLTree where
  root : AVLTreeNode
  size : Nat
deriving DecidableEq, Repr

namespace AVLTree

/-- `AVLTree::new`. -/
def new : AVLTree := ⟨.nil, 0⟩

/-- `AVLTree::put` (tree.rs): insert and bump `size` when a new node
was created. -/
def put (t : AVLTree) (key value : Int) : AVLTree :=
  let p := insertValue t.root key value
  ⟨p.1, if p.2 then t.size + 1 else t.size⟩

/-- `AVLTree::get`. -/
def get (t : AVLTree) (key : Int) : Option Int := getValue t.root key

/-- `AVLTree::scan`. -/
def scan (t : AVLTree) (start stop : Int) (kvHash : List Rec) : List Rec :=
  scanTree t.root start stop kvHash

/-- `AVLTree::scan_all`. -/
def scan_all (t : AVLTree) : List Rec := scanAllTree t.root

end AVLTree


/-! ### Record-level file model and the append-only backend
(serde.rs search/scan functions, storage/mod.rs `AppendOnlyLog`)

A flushed file is modelled as its record sequence; reading the page at
byte offset `i * PAGE_SIZE` yields `pageChunk file i` (exactly what
`deserialize_page` returns on the serialized image, by
`serde_page_roundtrip`), and a read past the end of the file is the
fatal `read_exact` failure. -/

/-- `deserialize_page(file, i * PAGE_SIZE)` on a record-level file. -/
def readPage (file : List Rec) (i : Nat) : Option (List Rec) :=
  if i < numPages file then some (pageChunk file i) else none

/-- `i64::MIN`, the tombstone sentinel. -/
def i64min : Int := -(2 ^ 63)

/-- Loop of `binary_search_array` (serde.rs): `left`/`right` are the
`usize` bounds; `none` marks a panic (index out of bounds / underflow
of `mid - 1`); fuel exhaustion cannot occur at the call below. -/
def binarySearchArrayGo (kvArr : List Rec) (key : Int) :
    Nat → Nat → Nat → Option (Option Int)
  | _, _, 0 => none
  | left, right, fuel + 1 =>
    if left ≤ right then
      let mid := left + (right - left) / 2
      match kvArr.get? mid with
      | none => none
      | some p =>
        if p.1 = key then some (some p.2)
        else if p.1 > key then
          if mid = 0 then none
          else binarySearchArrayGo kvArr key left (mid - 1) fuel
        else binarySearchArrayGo kvArr key (mid + 1) right fuel
    else some none

/-- `binary_search_array` (serde.rs). On an empty array the source
underflows `kv_arr.len() - 1` (fatal). -/
def binary_search_array (kvArr : List Rec) (key : Int) : Option (Option Int) :=
  if kvArr.isEmpty then none
  else binarySearchArrayGo kvArr key 0 (kvArr.length - 1) (kvArr.length + 2)

/-- Loop of `binary_search_file` (serde.rs): page-level binary search
probing each page's first and last key. -/
def binarySearchFileGo (file : List Rec) (key : Int) :
    Nat → Nat → Nat → Option (Option Int)
  | _, _, 0 => none
  | left, right, fuel + 1 =>
    if left ≤ right then
      let mid := left + (right - left) / 2
      match readPage file mid with
      | none => none
      | some kvArr =>
        match kvArr.head?, kvArr.getLast? with
        | some fst, some lst =>
          if fst.1 ≤ key ∧ key ≤ lst.1 then binary_search_array kvArr key
          else if fst.1 > key then
            if mid = 0 then some none
            else binarySearchFileGo file key left (mid - 1) fuel
          else binarySearchFileGo file key (mid + 1) right fuel
        | _, _ => none
    else some none

/-- `binary_search_file` (serde.rs). -/
def binary_search_file (file : List Rec) (totalPages : Nat) (key : Int) :
    Option (Option Int) :=
  if totalPages = 0 then none
  else binarySearchFileGo file key 0 (totalPages - 1) (totalPages + 2)

/-- `get_value_ssts` (serde.rs): consult files newest-first
(`get_sst_names` lists them in reverse creation order), return the
first hit. The file list argument here is already newest-first. -/
def getValueSstsGo : List (List Rec) → Int → Option (Option Int)
  | [], _ => some none
  | f :: rest, key =>
    match binary_search_file f (numPages f) key with
    | none => none
    | some (some v) => some (some v)
    | some none => getValueSstsGo rest key

/-- `get_value_ssts` on a database whose files are listed in creation
order (`output_0.bin` first). -/
def get_value_ssts (files : List (List Rec)) (key : Int) : Option (Option Int) :=
  getValueSstsGo files.reverse key

/-- Loop of `binary_search_array_start_index` (serde.rs): index of the
smallest element `≥ key`, tracking `found_arr_idx`. -/
def bsasiGo (kvArr : List Rec) (key : Int) :
    Nat → Nat → Option Nat → Nat → Option (Option Nat)
  | _, _, _, 0 => none
  | left, right, found, fuel + 1 =>
    if left ≤ right then
      let mid := left + (right - left) / 2
      match kvArr.get? mid with
      | none => none
      | some p =>
        if p.1 ≥ key then
          if mid = left then some (some mid)
          else bsasiGo kvArr key left (mid - 1) (some mid) fuel
        else bsasiGo kvArr key (mid + 1) right found fuel
    else some found

/-- `binary_search_array_start_index` (serde.rs). -/
def binary_search_array_start_index (kvArr : List Rec) (key : Int) :
    Option (Option Nat) :=
  if kvArr.isEmpty then none
  else bsasiGo kvArr key 0 (kvArr.length - 1) none (kvArr.length + 2)

/-- Page-search loop of `binary_search_sst_start_index` (serde.rs):
returns the found page index (or `none` after exhausting the range)
together with the last page contents loaded into `kv_arr`. -/
def bsssiGo (file : List Rec) (start : Int) :
    Nat → Nat → List Rec → Nat → Option (Option Nat × List Rec)
  | _, _, _, 0 => none
  | left, right, kvArr, fuel + 1 =>
    if left ≤ right then
      let mid := left + (right - left) / 2
      match readPage file mid with
      | none => none
      | some arr =>
        match arr.head?, arr.getLast? with
        | some fst, some lst =>
          if fst.1 ≤ start ∧ start ≤ lst.1 then some (some mid, arr)
          else if start < fst.1 then
            if mid = 0 then none
            else bsssiGo file start left (mid - 1) arr fuel
          else bsssiGo file start (mid + 1) right arr fuel
        | _, _ => none
    else some (none, kvArr)

/-- `binary_search_sst_start_index` (serde.rs). -/
def binary_search_sst_start_index (file : List Rec) (totalPages : Nat)
    (start stop : Int) : Option (Option Nat × Option Nat) := do
  let firstPage ← readPage file 0
  let lastPage ← readPage file (totalPages - 1)
  let f0 ← firstPage.head?
  let ll ← lastPage.getLast?
  if f0.1 ≤ start ∧ start ≤ ll.1 then
    match bsssiGo file start 0 (totalPages - 1) [] (totalPages + 2) with
    | none => none
    | some (pidx, kvArr) =>
      match binary_search_array_start_index kvArr start with
      | none => none
      | some aidx => some (pidx, aidx)
  else if start < f0.1 ∧ f0.1 ≤ stop then some (some 0, some 0)
  else some (none, none)

/-- Inner record loop of `scan_file` (serde.rs): insert-if-absent each
record from `arrIdx` on while its key is `≤ stop`. -/
def scanArrLoop (arr : List Rec) (stop : Int) : Nat → List Rec → Nat → List Rec
  | _, kvHash, 0 => kvHash
  | i, kvHash, fuel + 1 =>
    match arr.get? i with
    | none => kvHash
    | some p =>
      if p.1 ≤ stop then scanArrLoop arr stop (i + 1) (mOrInsert kvHash p.1 p.2) fuel
      else kvHash

/-- Page loop of `scan_file` (serde.rs). -/
def scanFileGo (file : List Rec) (totalPages : Nat) (stop : Int) :
    Nat → Nat → List Rec → Nat → Option (List Rec)
  | _, _, _, 0 => none
  | pageIdx, arrIdx, kvHash, fuel + 1 =>
    if pageIdx = totalPages then some kvHash
    else
      match readPage file pageIdx with
      | none => none
      | some arr =>
        scanFileGo file totalPages stop (pageIdx + 1) 0
          (scanArrLoop arr stop arrIdx kvHash (arr.length + 1)) fuel

/-- `scan_file` (serde.rs). -/
def scan_file (file : List Rec) (totalPages pageIdx arrIdx : Nat) (stop : Int)
    (kvHash : List Rec) : Option (List Rec) :=
  scanFileGo file totalPages stop pageIdx arrIdx kvHash (totalPages + 1)

/-- File loop of `scan_ssts` (serde.rs), files already newest-first:
scan each file from its start position and break early as soon as the
map size equals `end - start`. -/
def scanSstsGo (start stop : Int) (numElems : Nat) :
    List (List Rec) → List Rec → Option (List Rec)
  | [], kvHash => some kvHash
  | f :: rest, kvHash => do
    let totalPages := numPages f
    let res ← binary_search_sst_start_index f totalPages start stop
    let kvHash' ←
      match res with
      | (some pidx, some aidx) => scan_file f totalPages pidx aidx stop kvHash
      | _ => some kvHash
    if mLen kvHash' = numElems then some kvHash'
    else scanSstsGo start stop numElems rest kvHash'

/-- `scan_ssts` (serde.rs). `num_elements_in_range` is
`(end - start) as usize`; every caller (the client checked
`start ≤ end`) reaches this with a non-negative difference. -/
def scan_ssts (files : List (List Rec)) (start stop : Int) (kvHash : List Rec) :
    Option (List Rec) :=
  scanSstsGo start stop (stop - start).toNat files.reverse kvHash

/-! ### The caller-facing `Client` (lib.rs), generic over the
`DiskStorage` trait (storage/traits.rs) -/

/-- The `DiskStorage` trait: `get`, `scan`, `flush`. Each operation may
abort the process (`none`). -/
structure DiskStorageOps (σ : Type) where
  get : σ → Int → Option (Option Int)
  scan : σ → Int → Int → List Rec → Option (List Rec)
  flush : σ → Nat → List Rec → Option σ

/-- The `Client` struct (lib.rs): memtable, its configured capacity,
the flush counter, and the backend state. -/
structure Client (σ : Type) where
  memtable : AVLTree
  memtableSize : Nat
  sstCount : Nat
  storage : σ
deriving DecidableEq, Repr

namespace Client

/-- `Client::flush` (lib.rs): drain the memtable in sorted order into
the backend, bump `sst_count`, reset the memtable. -/
def flushC (ds : DiskStorageOps σ) (c : Client σ) : Option (Client σ) :=
  (ds.flush c.storage c.sstCount c.memtable.scan_all).map fun st =>
    { c with storage := st, sstCount := c.sstCount + 1, memtable := AVLTree.new }

/-- `Client::put` (lib.rs): insert into the memtable, flush when its
size reaches `memtable_size`. -/
def put (ds : DiskStorageOps σ) (c : Client σ) (key value : Int) :
    Option (Client σ) :=
  let c' := { c with memtable := c.memtable.put key value }
  if c'.memtable.size ≥ c'.memtableSize then flushC ds c' else some c'

/-- `Client::get` (lib.rs): memtable first, then the backend; a
tombstone value is reported as absent. -/
def get (ds : DiskStorageOps σ) (c : Client σ) (key : Int) : Option (Option Int) :=
  let base : Option (Option Int) :=
    match c.memtable.get key with
    | some v => some (some v)
    | none => ds.get c.storage key
  base.map fun result => if result = some i64min then none else result

/-- `Client::scan` (lib.rs), up to the final map-to-vector conversion:
empty on `start > end`, otherwise memtable scan then backend scan into
one dedup map, with tombstones filtered out. -/
def scanC (ds : DiskStorageOps σ) (c : Client σ) (start stop : Int) :
    Option (List Rec) :=
  if start > stop then some []
  else do
    let h1 := c.memtable.scan start stop []
    let h2 ← ds.scan c.storage start stop h1
    some (h2.filter fun a => a.2 != i64min)

/-- `Client::delete` (lib.rs): a tombstone put straight into the
memtable — no size check, no flush. -/
def delete (c : Client σ) (key : Int) : Client σ :=
  { c with memtable := c.memtable.put key i64min }

/-- `Client::update` (lib.rs): a put straight into the memtable — no
size check, no flush. -/
def update (c : Client σ) (key value : Int) : Client σ :=
  { c with memtable := c.memtable.put key value }

end Client

/-- The `AppendOnlyLog` backend (storage/mod.rs): state is the list of
flushed files in creation order; `flush` writes `output_{sst_count}`
(the client keeps `sst_count` equal to the file count, so this appends
a fresh file). -/
def aoOps : DiskStorageOps (List (List Rec)) where
  get st key := get_value_ssts st key
  scan st start stop kvHash := scan_ssts st start stop kvHash
  flush st _ contents := some (st ++ [contents])

/-- A freshly opened append-only client with `memtable_size = 1`
(`Client::open` on an empty directory). -/
def aoClient1 : Client (List (List Rec)) :=
  { memtable := AVLTree.new, memtableSize := 1, sstCount := 0, storage := [] }

/-- The state of `aoClient1` after `put(2, 20)` (used as a witness). -/
def aoClient1P : Client (List (List Rec)) :=
  { memtable := AVLTree.new, memtableSize := 1, sstCount := 1, storage := [[(2, 20)]] }


/-! ### Page cache: `BufferPool` (buffer/mod.rs, buffer/lru.rs)

The bucket array `Vec<Option<Rc<RefCell<BufferNode>>>>` with intrusive
doubly-linked collision chains becomes a function from bucket index to
the chain, listed head-first; the intrusive LRU list becomes the list
of cached keys with the front (next to evict) first and the back (most
recently used) last. The 64-bit xxh3 string hash of
`"{sst_name} {page_offset}"` is abstracted as a parameter
`h : BKey → Nat`; `custom_hash` then reduces it modulo the pool size
exactly as the source does. -/

/-- `BufferKey` (buffer/mod.rs): SST name and byte offset. -/
abbrev BKey := String × Nat

/-- `custom_hash` (buffer/mod.rs): abstract 64-bit hash modulo the
bucket-array size. (The source panics on `% 0`; both call sites guard
`size = 0` before reaching it.) -/
def custom_hash (h : BKey → Nat) (key : BKey) (arrSize : Nat) : Nat :=
  h key % arrSize

/-- The `BufferPool` struct (buffer/mod.rs). -/
structure BufferPool where
  size : Nat
  currSize : Nat
  buffer : Nat → List (BKey × List Rec)
  lru : List BKey

namespace BufferPool

/-- `BufferPool::new`: empty buckets, empty LRU. -/
def new (bufferSize : Nat) : BufferPool :=
  { size := bufferSize, currSize := 0, buffer := fun _ => [], lru := [] }

/-- `search_buffer_chain` (buffer/mod.rs), returning the found node's
page. -/
def searchBufferChain (key : BKey) : List (BKey × List Rec) → Option (List Rec)
  | [] => none
  | e :: rest => if e.1 = key then some e.2 else searchBufferChain key rest

/-- `BufferPool::search_buffer`: always a miss when `size = 0`,
otherwise walk the bucket chain of the key's hash. -/
def search_buffer (p : BufferPool) (h : BKey → Nat) (key : BKey) : Option (List Rec) :=
  if p.size = 0 then none
  else searchBufferChain key (p.buffer (custom_hash h key p.size))

/-- `BufferPool::find_buffer_page`: on a hit, splice the entry to the
LRU back (`LRUMain::update_lru_position`; a no-op when it is already
the back, which the erase-and-append form also gives). -/
def find_buffer_page (p : BufferPool) (h : BKey → Nat) (key : BKey) :
    Option (List Rec × BufferPool) :=
  match search_buffer p h key with
  | none => none
  | some page => some (page, { p with lru := p.lru.erase key ++ [key] })

/-- `BufferPool::run_eviction` together with `LRUMain::next_to_evict`:
pop the LRU front and unlink that entry from its bucket chain; `false`
when the LRU is empty. -/
def run_eviction (p : BufferPool) (h : BKey → Nat) : Bool × BufferPool :=
  match p.lru with
  | [] => (false, p)
  | k :: rest =>
    let idx := custom_hash h k p.size
    (true,
      { p with
        lru := rest
        currSize := p.currSize - 1
        buffer := fun j =>
          if j = idx then (p.buffer idx).eraseP (fun e => e.1 == k)
          else p.buffer j })

/-- First statement of `BufferPool::insert`: when the pool is full,
evict first; a failed eviction on a full pool is the fatal
"Eviction failed when attempting overflow insert!" panic (`none`). -/
def evictIfFull (p : BufferPool) (h : BKey → Nat) : Option BufferPool :=
  if p.currSize = p.size then
    match run_eviction p h with
    | (false, _) => none
    | (true, q) => some q
  else some p

/-- `BufferPool::insert` (after the eviction step): prepend to the
bucket chain and append to the LRU back. -/
def insert (p : BufferPool) (h : BKey → Nat) (key : BKey) (page : List Rec) :
    Option BufferPool :=
  (evictIfFull p h).map fun p1 =>
    { p1 with
      lru := p1.lru ++ [key]
      currSize := p1.currSize + 1
      buffer := fun j =>
        if j = custom_hash h key p1.size then (key, page) :: p1.buffer j
        else p1.buffer j }

/-- `BufferPool::find_page`: cached copy on a hit; otherwise
`deserialize_page` from disk (the `disk` parameter) and insert. -/
def find_page (h : BKey → Nat) (disk : BKey → List Rec) (p : BufferPool)
    (key : BKey) : Option (List Rec × BufferPool) :=
  match find_buffer_page p h key with
  | some hit => some hit
  | none =>
    let page := disk key
    (insert p h key page).map fun q => (page, q)

/-- Issue a sequence of `find_page` requests, threading the pool. -/
def findPages (h : BKey → Nat) (disk : BKey → List Rec) :
    BufferPool → List BKey → Option BufferPool
  | p, [] => some p
  | p, k :: rest =>
    match find_page h disk p k with
    | none => none
    | some (_, p') => findPages h disk p' rest

/-- The keys resident in the cache: everything reachable from some
bucket chain. -/
def cachedKeys (p : BufferPool) : List BKey :=
  (List.range p.size).flatMap fun i => (p.buffer i).map Prod.fst

end BufferPool

/-- Invariant of a pool of capacity `C` after the distinct pages
`done` have been requested in order: the LRU holds the last
`min(C, |done|)` requests oldest-first, `curr_size` matches, every
chain entry sits in its own hash bucket and is LRU-resident, every
LRU key is found in its bucket, and no key occurs twice in a chain. -/
def PoolInv (h : BKey → Nat) (C : Nat) (done : List BKey) (p : BufferPool) : Prop :=
  p.size = C ∧
  p.lru = done.drop (done.length - C) ∧
  p.currSize = p.lru.length ∧
  (∀ i, ∀ e ∈ p.buffer i, e.1 ∈ p.lru ∧ custom_hash h e.1 C = i ∧ i < C) ∧
  (∀ k ∈ p.lru, k ∈ (p.buffer (custom_hash h k C)).map Prod.fst) ∧
  (∀ i, ((p.buffer i).map Prod.fst).Nodup)


/-! ### Bloom filter (src/kv/src/filter.rs)

The ten seeded `XxHash64` functions are abstracted as a parameter
`hf : Nat → Int → Nat` (`hf i k` is the 64-bit hash of key `k` under
seed `SEEDS[i]`); the bitmap byte vector becomes a bit function. -/

/-- The `Bitmap` struct: bit count and bit contents. -/
structure Bitmap where
  size : Nat
  bits : Nat → Bool

/-- `Bitmap::new`. -/
def Bitmap.new (size : Nat) : Bitmap := ⟨size, fun _ => false⟩

/-- `Bitmap::set`. -/
def Bitmap.set (b : Bitmap) (idx : Nat) : Bitmap :=
  { b with bits := fun j => if j = idx then true else b.bits j }

/-- `BloomFilter::insert_key` for `Bitmap`: set the ten bits
`hf i key % size`. (Rust panics on `% 0`; all filters are built with
positive sizes.) -/
def Bitmap.insert_key (hf : Nat → Int → Nat) (b : Bitmap) (key : Int) : Bitmap :=
  (List.range 10).foldl (fun acc i => acc.set (hf i key % acc.size)) b

/-- `BloomFilter::check_key` for `Bitmap`: `false` as soon as one of
the ten bits is clear. -/
def Bitmap.check_key (hf : Nat → Int → Nat) (b : Bitmap) (key : Int) : Bool :=
  (List.range 10).all fun i => b.bits (hf i key % b.size)

/-- Insert a key list into a bitmap (the per-record
`insert_key` calls of `LSMTree::flush` / `merge_ssts`). -/
def bitmapInsertKeys (hf : Nat → Int → Nat) (b : Bitmap) (keys : List Int) : Bitmap :=
  keys.foldl (Bitmap.insert_key hf) b

/-- A concrete stand-in hash family for witnesses and
counterexamples. -/
def hfAbs : Nat → Int → Nat := fun _ k => k.natAbs

/-! ### Static B-tree construction and search
(src/kv/src/storage/part3btree.rs, shared helpers in btree.rs) -/

/-- `kv_arr[0].0` of a page (pages are never empty in reachable
states; the source would panic on an empty one). -/
def firstKey (p : List Rec) : Int := (p.head?.map Prod.fst).getD 0

/-- The 256-record pages of a file's record sequence. -/
def pagesOf (kv : List Rec) : List (List Rec) := chunkList 255 kv

/-- Inner layer-construction loop of
`part3_create_b_tree_internal_file`: cut the candidate keys into
nodes of `1 + keys_per_node (+1 for the first excess_keys nodes)`
keys, promoting the key between consecutive nodes to the next layer. -/
def buildLayerGo (keysPerNode excessKeys : Nat) :
    List Int → Nat → Nat → List (List Int) × List Int
  | _, _, 0 => ([], [])
  | cands, nodeIdx, fuel + 1 =>
    if cands.isEmpty then ([], [])
    else
      let nKeys := 1 + keysPerNode + (if nodeIdx < excessKeys then 1 else 0)
      let node := cands.take nKeys
      match cands.drop nKeys with
      | [] => ([node], [])
      | c :: rest2 =>
        let p := buildLayerGo keysPerNode excessKeys rest2 (nodeIdx + 1) fuel
        (node :: p.1, c :: p.2)

/-- Outer `while !candidates.is_empty()` loop: build the internal
layers bottom-up (`internal_levels`, leaf-adjacent layer first). -/
def buildLevelsGo : List Int → Nat → Nat → List (List (List Int))
  | _, _, 0 => []
  | candidates, numPtrs, fuel + 1 =>
    if candidates.isEmpty then []
    else
      let currNodes := (numPtrs + 255) / 256
      let keysPerNode := (numPtrs - 2 * currNodes) / currNodes
      let excessKeys := (numPtrs - 2 * currNodes) % currNodes
      let p := buildLayerGo keysPerNode excessKeys candidates 0 (candidates.length + 1)
      p.1 :: buildLevelsGo p.2 p.1.length fuel

/-- One internal node's page: `(node[0], leftmost_child)` then one
entry per key, child page indices counting up from `offset`. -/
def nodePage (node : List Int) (offset : Nat) : List Rec :=
  match node with
  | [] => []
  | k0 :: _ =>
    (k0, (offset : Int)) :: node.enum.map fun e => (e.2, (offset + 1 + e.1 : Int))

/-- Pages of one internal layer, left to right. -/
def levelPages : List (List Int) → Nat → List (List Rec)
  | [], _ => []
  | node :: more, offset => nodePage node offset :: levelPages more (offset + node.length + 1)

/-- Serialization loop of `part3_create_b_tree_internal_file`:
top-down over `internal_levels.iter().rev()`, tracking
`pages_in_front`; each node's leftmost child index is
`pages_in_front + nodes_in_this_level`. -/
def buildInternalPagesGo : List (List (List Int)) → Nat → List (List Rec)
  | [], _ => []
  | level :: rest, pagesInFront =>
    levelPages level (pagesInFront + level.length) ++
      buildInternalPagesGo rest (pagesInFront + level.length)

/-- `part3_create_b_tree_internal_file` (part3btree.rs): the internal
pages derived from the leaf pages. When there is a single leaf page
the candidate list is empty and nothing is written (no internal file
is created at all — see claims C1/C4). -/
def part3CreateInternalPages (leafPages : List (List Rec)) : List (List Rec) :=
  let candidates := (leafPages.drop 1).map firstKey
  buildInternalPagesGo (buildLevelsGo candidates leafPages.length (candidates.length + 1)) 0

/-- Loop of `binary_search_internal_se_key` (btree.rs): greatest entry
in indices `1 ..` whose key is `≤ key`. -/
def bsiseGo (arr : List Rec) (key : Int) :
    Nat → Nat → Option Nat → Nat → Option (Option Nat)
  | _, _, _, 0 => none
  | left, right, found, fuel + 1 =>
    if left ≤ right then
      let mid := left + (right - left) / 2
      match arr.get? mid with
      | none => none
      | some p =>
        if p.1 = key then some (some mid)
        else if p.1 < key then
          if mid = left then some (some mid)
          else bsiseGo arr key (mid + 1) right (some mid) fuel
        else bsiseGo arr key left (mid - 1) found fuel
    else some found

/-- `binary_search_internal_se_key` (btree.rs): search starts at index
1 (index 0 is the duplicated leftmost-child sentinel). -/
def binary_search_internal_se_key (arr : List Rec) (key : Int) : Option (Option Nat) :=
  if arr.length = 0 then none
  else bsiseGo arr key 1 (arr.length - 1) none (arr.length + 2)

/-- Internal-file descent loop of `part3_search_b_tree_sst` /
`part3_scan_b_tree_sst`: follow child page indices until the index
leaves the internal file. `none` models the in-loop panics (failed
`assert!`, out-of-range index, negative child index). -/
def part3SearchGo (intPages : List (List Rec)) (key : Int) : Nat → Nat → Option Nat
  | _, 0 => none
  | pageIdx, fuel + 1 =>
    if pageIdx ≥ intPages.length then some pageIdx
    else
      match intPages.get? pageIdx with
      | none => none
      | some arr =>
        match arr with
        | a :: b :: _ =>
          if a.1 = b.1 then
            match binary_search_internal_se_key arr key with
            | none => none
            | some found =>
              let arrIdx := found.getD 0
              match arr.get? arrIdx with
              | none => none
              | some e =>
                if e.2 < 0 then none
                else part3SearchGo intPages key e.2.toNat fuel
          else none
        | _ => none

/-- `part3_search_b_tree_sst` (part3btree.rs). The two `Option` file
arguments model the files on disk: an absent internal file makes the
opening `metadata` call panic (`none`) — this is what happens to every
single-leaf-page run. -/
def part3Search (leafOpt : Option (List Rec)) (intOpt : Option (List (List Rec)))
    (key : Int) : Option (Option Int) :=
  match intOpt with
  | none => none
  | some intPages =>
    match part3SearchGo intPages key 0 (intPages.length + 2) with
    | none => none
    | some pidx =>
      let leafIdx := pidx - intPages.length
      match leafOpt with
      | none => none
      | some leaf =>
        match readPage leaf leafIdx with
        | none => none
        | some kvArr =>
          match binary_search_array_start_index kvArr key with
          | none => none
          | some none => some none
          | some (some i) =>
            match kvArr.get? i with
            | none => none
            | some e => some (if e.1 = key then some e.2 else none)

/-- Inner record loop of `scan_b_tree_file` (btree.rs), returning the
final index `i` alongside the map (the caller breaks out of the page
loop when `i` stopped short of the page length). -/
def scanArrLoopIdx (arr : List Rec) (stop : Int) :
    Nat → List Rec → Nat → List Rec × Nat
  | i, kvHash, 0 => (kvHash, i)
  | i, kvHash, fuel + 1 =>
    match arr.get? i with
    | none => (kvHash, i)
    | some p =>
      if p.1 ≤ stop then scanArrLoopIdx arr stop (i + 1) (mOrInsert kvHash p.1 p.2) fuel
      else (kvHash, i)

/-- Page loop of `scan_b_tree_file` (btree.rs). -/
def scanBTreeFileGo (leaf : List Rec) (totalPages : Nat) (stop : Int) :
    Nat → Nat → List Rec → Nat → Option (List Rec)
  | _, _, _, 0 => none
  | pageIdx, arrIdx, kvHash, fuel + 1 =>
    if pageIdx < totalPages then
      match readPage leaf pageIdx with
      | none => none
      | some arr =>
        let p := scanArrLoopIdx arr stop arrIdx kvHash (arr.length + 1)
        if p.2 ≠ arr.length then some p.1
        else scanBTreeFileGo leaf totalPages stop (pageIdx + 1) 0 p.1 fuel
    else some kvHash

/-- `scan_b_tree_file` (btree.rs). -/
def scan_b_tree_file (leaf : List Rec) (totalPages pageIdx arrIdx : Nat)
    (stop : Int) (kvHash : List Rec) : Option (List Rec) :=
  scanBTreeFileGo leaf totalPages stop pageIdx arrIdx kvHash (totalPages + 1)

/-- `part3_scan_b_tree_sst` (part3btree.rs). -/
def part3Scan (leafOpt : Option (List Rec)) (intOpt : Option (List (List Rec)))
    (key1 key2 : Int) (kvHash : List Rec) : Option (List Rec) :=
  match intOpt with
  | none => none
  | some intPages =>
    match part3SearchGo intPages key1 0 (intPages.length + 2) with
    | none => none
    | some pidx =>
      match leafOpt with
      | none => none
      | some leaf =>
        let startPage := pidx - intPages.length
        match readPage leaf startPage with
        | none => none
        | some kvArr =>
          match binary_search_array_start_index kvArr key1 with
          | none => none
          | some none => some kvHash
          | some (some aidx) =>
            scan_b_tree_file leaf (numPages leaf) startPage aidx key2 kvHash

/-! ### LSM tree (src/kv/src/storage/lsm.rs)

The database directory is modelled by two partial maps: `(level, run)`
to the leaf file's record sequence, and `(level, run)` to the
internal-index file's pages. The buffer pool is read-through on these
immutable files (`find_page` returns exactly the disk page and merges
only read files that exist while they exist), so page reads go
straight to the maps. -/

/-- The `LSMTree` struct: run counter, per-level Bloom filters
(`Vec<Option<Bitmap>>` of 51 slots, modelled as a total function —
levels above 50 would need `2^50` flushes), the memtable capacity, and
the directory contents. -/
structure LSMTree where
  treeSize : Nat
  filters : Nat → Option Bitmap
  memtableSize : Nat
  leafFs : Nat × Nat → Option (List Rec)
  intFs : Nat × Nat → Option (List (List Rec))

/-- `LSMTree::new`. -/
def LSMTree.new (memtableSize : Nat) : LSMTree :=
  { treeSize := 0
    filters := fun _ => none
    memtableSize := memtableSize
    leafFs := fun _ => none
    intFs := fun _ => none }

/-- The two-input merge at the heart of `LSMTree::merge_ssts`: stream
records in key order, and on equal keys keep the second (newer) input's
record, dropping the older. (The source streams the two leaf files
page by page through a 256-record output buffer; the emitted record
sequence is exactly this merge.) Each step consumes at least one input
record, so the fuel `a.length + b.length` below always suffices. -/
def mergeRecsGo : Nat → List Rec → List Rec → List Rec
  | 0, _, _ => []
  | _ + 1, [], b => b
  | _ + 1, x :: a, [] => x :: a
  | fuel + 1, x :: a, y :: b =>
    if x.1 < y.1 then x :: mergeRecsGo fuel a (y :: b)
    else if y.1 < x.1 then y :: mergeRecsGo fuel (x :: a) b
    else y :: mergeRecsGo fuel a b

def mergeRecs (a b : List Rec) : List Rec := mergeRecsGo (a.length + b.length) a b

/-- `LSMTree::merge_ssts` (lsm.rs): merge the two level-`level` runs
`tree_size - 2^(level-1)` (older) and `tree_size` (newer) into a
level-`level+1` run named `tree_size`; build its internal file; delete
the four input files (`remove_file(..).unwrap()` — a missing input is
fatal); clear level `level`'s filter and install the merged filter at
`level + 1`. -/
def mergeSsts (hf : Nat → Int → Nat) (st : LSMTree) (level : Nat) : Option LSMTree :=
  let r1 := st.treeSize - 2 ^ (level - 1)
  match st.leafFs (level, r1), st.leafFs (level, st.treeSize),
      st.intFs (level, r1), st.intFs (level, st.treeSize) with
  | some first, some second, some _, some _ =>
    let out := mergeRecs first second
    let newFilter :=
      bitmapInsertKeys hf (Bitmap.new (2 ^ level * st.memtableSize * 10))
        (out.map Prod.fst)
    some
      { st with
        leafFs := fun p =>
          if p = (level + 1, st.treeSize) then some out
          else if p = (level, r1) then none
          else if p = (level, st.treeSize) then none
          else st.leafFs p
        intFs := fun p =>
          if p = (level + 1, st.treeSize) then
            if 2 ≤ numPages out then some (part3CreateInternalPages (pagesOf out))
            else none
          else if p = (level, r1) then none
          else if p = (level, st.treeSize) then none
          else st.intFs p
        filters := fun i =>
          if i = level then none
          else if i = level + 1 then some newFilter
          else st.filters i }
  | _, _, _, _ => none

/-- The `while tree_size & (1 << (level-1)) == 0` cascade of
`LSMTree::flush`; the fuel passed by `lsmFlush` always outlasts the
trailing-zero count of the incremented counter. -/
def mergeLoop (hf : Nat → Int → Nat) : LSMTree → Nat → Nat → Option LSMTree
  | _, _, 0 => none
  | st, level, fuel + 1 =>
    if st.treeSize &&& (1 <<< (level - 1)) = 0 then
      (mergeSsts hf st level).bind fun st2 => mergeLoop hf st2 (level + 1) fuel
    else some st

/-- `LSMTree::flush` (lsm.rs): a no-op on empty contents; otherwise
increment `tree_size`, write the level-1 leaf file (internal file only
when it spans at least two pages — `part3_create_b_tree_internal_file`
writes nothing for a single-page leaf), build the level-1 filter, then
run the binary-counter merge cascade. -/
def lsmFlush (hf : Nat → Int → Nat) (st : LSMTree) (contents : List Rec) :
    Option LSMTree :=
  if contents.isEmpty then some st
  else
    let ts := st.treeSize + 1
    let st1 : LSMTree :=
      { st with
        treeSize := ts
        leafFs := fun p => if p = (1, ts) then some contents else st.leafFs p
        intFs := fun p =>
          if p = (1, ts) then
            if 2 ≤ numPages contents then
              some (part3CreateInternalPages (pagesOf contents))
            else none
          else st.intFs p
        filters := fun i =>
          if i = 1 then
            some (bitmapInsertKeys hf (Bitmap.new (10 * contents.length))
              (contents.map Prod.fst))
          else st.filters i }
    mergeLoop hf st1 1 ts

/-- `u32::ilog2` (floor base-2 logarithm); the fuel `n` always covers
the halving chain of a positive `n`. -/
def ilog2Go : Nat → Nat → Nat
  | _, 0 => 0
  | n, fuel + 1 => if 2 ≤ n then ilog2Go (n / 2) fuel + 1 else 0

/-- `u32::ilog2`; the source only calls it on `tree_size ≥ 1`
(`ilog2(0)` panics in Rust). -/
def ilog2 (n : Nat) : Nat := ilog2Go n n

/-- The level-skip condition of `LSMTree::get` (lsm.rs lines 230–231):
`continue` when the level is absent from `tree_size`, or when the
Bloom filter at index 0 — not index `i` — reports a certain miss
(`!self.filters[0].as_ref().map_or(true, |a| a.check_key(key))`). -/
def lsmSkipLevel (hf : Nat → Int → Nat) (st : LSMTree) (i : Nat) (key : Int) : Bool :=
  (st.treeSize &&& (1 <<< (i - 1)) == 0) ||
    !((st.filters 0).elim true fun a => a.check_key hf key)

/-- Level loop of `LSMTree::get`. -/
def lsmGetGo (hf : Nat → Int → Nat) (st : LSMTree) (key : Int) :
    List Nat → Option (Option Int)
  | [] => some none
  | i :: rest =>
    if lsmSkipLevel hf st i key then lsmGetGo hf st key rest
    else
      let r := st.treeSize / 2 ^ (i - 1) * 2 ^ (i - 1)
      match part3Search (st.leafFs (i, r)) (st.intFs (i, r)) key with
      | none => none
      | some (some a) => some (some a)
      | some none => lsmGetGo hf st key rest

/-- `LSMTree::get` (lsm.rs): absent when `tree_size = 0`, else iterate
levels `1 ..= ilog2(tree_size) + 1`. -/
def lsmGet (hf : Nat → Int → Nat) (st : LSMTree) (key : Int) : Option (Option Int) :=
  if st.treeSize = 0 then some none
  else lsmGetGo hf st key ((List.range (ilog2 st.treeSize + 1)).map (· + 1))

/-- Level loop of `LSMTree::scan`. -/
def lsmScanGo (st : LSMTree) (start stop : Int) :
    List Nat → List Rec → Option (List Rec)
  | [], kvHash => some kvHash
  | i :: rest, kvHash =>
    if st.treeSize &&& (1 <<< (i - 1)) = 0 then lsmScanGo st start stop rest kvHash
    else
      let r := st.treeSize / 2 ^ (i - 1) * 2 ^ (i - 1)
      match part3Scan (st.leafFs (i, r)) (st.intFs (i, r)) start stop kvHash with
      | none => none
      | some kvHash2 => lsmScanGo st start stop rest kvHash2

/-- `LSMTree::scan` (lsm.rs). -/
def lsmScan (st : LSMTree) (start stop : Int) (kvHash : List Rec) :
    Option (List Rec) :=
  if st.treeSize = 0 then some kvHash
  else lsmScanGo st start stop ((List.range (ilog2 st.treeSize + 1)).map (· + 1)) kvHash

/-- The `LSMTree` backend as a `DiskStorage` instance. -/
def lsmOps (hf : Nat → Int → Nat) : DiskStorageOps LSMTree where
  get st key := lsmGet hf st key
  scan st start stop kvHash := lsmScan st start stop kvHash
  flush st _ contents := lsmFlush hf st contents

/-- A freshly opened LSM client with the given `memtable_size`. -/
def lsmClient (m : Nat) : Client LSMTree :=
  { memtable := AVLTree.new, memtableSize := m, sstCount := 0,
    storage := LSMTree.new m }

theorem encRec_length (r : Rec) : (encRec r).length = 16 := by
  simp [encRec, toBe8]

theorem sentBlock_length : sentBlock.length = 16 := by decide

theorem encRec_sentRec : encRec sentRec = sentBlock := by decide

theorem fromBe8_toBe8 (x : Int) (h1 : -2 ^ 63 ≤ x) (h2 : x < 2 ^ 63) :
    fromBe8 (toBe8 x) = x := by
  simp only [toBe8, fromBe8]
  have hx : (0:Int) ≤ x % 2 ^ 64 := Int.emod_nonneg x (by norm_num)
  have hx2 : x % 2 ^ 64 < 2 ^ 64 := Int.emod_lt_of_pos x (by norm_num)
  have hval : x % 2 ^ 64 = if 0 ≤ x then x else x + 2 ^ 64 := by
    split <;> omega
  have hn : ((x % 2 ^ 64).toNat : Int) = x % 2 ^ 64 := Int.toNat_of_nonneg hx
  set n : Nat := (x % 2 ^ 64).toNat with hndef
  have hnlt : n < 2 ^ 64 := by omega
  have hrecomb : n / 2 ^ 56 % 256 * 2 ^ 56 + n / 2 ^ 48 % 256 * 2 ^ 48 +
      n / 2 ^ 40 % 256 * 2 ^ 40 + n / 2 ^ 32 % 256 * 2 ^ 32 + n / 2 ^ 24 % 256 * 2 ^ 24 +
      n / 2 ^ 16 % 256 * 2 ^ 16 + n / 2 ^ 8 % 256 * 2 ^ 8 + n % 256 = n := by
    omega
  simp only [hrecomb]
  split <;> omega

theorem decRec_encRec (r : Rec) (h1 : -2 ^ 63 ≤ r.1) (h2 : r.1 < 2 ^ 63)
    (h3 : -2 ^ 63 ≤ r.2) (h4 : r.2 < 2 ^ 63) : decRec (encRec r) = r := by
  have hlen : (toBe8 r.1).length = 8 := by simp [toBe8]
  have htake : (encRec r).take 8 = toBe8 r.1 := by
    rw [encRec, List.take_append_of_le_length (by omega), ← hlen, List.take_length]
  have hdrop : (encRec r).drop 8 = toBe8 r.2 := by
    rw [encRec, ← hlen, List.drop_left]
  rw [decRec, htake, hdrop, fromBe8_toBe8 _ h1 h2, fromBe8_toBe8 _ h3 h4]

theorem encRec_ne_sentBlock (r : Rec) (h1 : -2 ^ 63 ≤ r.1) (h2 : r.1 < 2 ^ 63)
    (h3 : -2 ^ 63 ≤ r.2) (h4 : r.2 < 2 ^ 63) (hne : r ≠ sentRec) :
    encRec r ≠ sentBlock := by
  intro h
  apply hne
  have := decRec_encRec r h1 h2 h3 h4
  rw [h] at this
  rw [← this]
  decide

theorem flatten_length_uniform {m : Nat} (bs : List (List α))
    (h : ∀ b ∈ bs, b.length = m) : bs.flatten.length = m * bs.length := by
  induction bs with
  | nil => simp
  | cons b bs ih =>
    simp only [List.flatten_cons, List.length_append, List.length_cons]
    rw [h b (by simp), ih (fun x hx => h x (by simp [hx]))]
    ring

theorem flatten_drop_uniform {m : Nat} (k : Nat) (bs : List (List α))
    (h : ∀ b ∈ bs, b.length = m) : bs.flatten.drop (m * k) = (bs.drop k).flatten := by
  induction k generalizing bs with
  | zero => simp
  | succ k ih =>
    cases bs with
    | nil => simp
    | cons b bs =>
      have hb : b.length = m := h b (by simp)
      have hm : m * (k + 1) = b.length + m * k := by rw [hb, Nat.mul_succ, Nat.add_comm]
      simp only [List.flatten_cons, List.drop_succ_cons]
      rw [hm, List.drop_append]
      exact ih bs (fun x hx => h x (by simp [hx]))

theorem flatten_take_uniform {m : Nat} (k : Nat) (bs : List (List α))
    (h : ∀ b ∈ bs, b.length = m) : bs.flatten.take (m * k) = (bs.take k).flatten := by
  induction k generalizing bs with
  | zero => simp
  | succ k ih =>
    cases bs with
    | nil => simp
    | cons b bs =>
      have hb : b.length = m := h b (by simp)
      have hm : m * (k + 1) = b.length + m * k := by rw [hb, Nat.mul_succ, Nat.add_comm]
      simp only [List.flatten_cons, List.take_succ_cons]
      rw [hm, List.take_append]
      rw [ih bs (fun x hx => h x (by simp [hx]))]

theorem chunkList_flatten_uniform {n : Nat} (bs : List (List α))
    (h : ∀ b ∈ bs, b.length = n + 1) : chunkList n bs.flatten = bs := by
  induction bs with
  | nil => simp [chunkList]
  | cons b bs ih =>
    have hb : b.length = n + 1 := h b (by simp)
    obtain ⟨x, xs, rfl⟩ : ∃ x xs, b = x :: xs := by
      cases b with
      | nil => simp at hb
      | cons x xs => exact ⟨x, xs, rfl⟩
    simp only [List.flatten_cons, List.cons_append]
    rw [chunkList]
    have h1 : ((x :: (xs ++ bs.flatten)).take (n + 1)) = x :: xs := by
      rw [← List.cons_append, List.take_append_of_le_length (by omega), ← hb,
        List.take_length]
    have h2 : ((x :: (xs ++ bs.flatten)).drop (n + 1)) = bs.flatten := by
      rw [← List.cons_append, ← hb, List.drop_left]
    rw [h1, h2, ih (fun x hx => h x (by simp [hx]))]

theorem trimBlocks_append_replicate (xs : List (List Nat)) (p : Nat)
    (h : ∀ b, xs.getLast? = some b → b ≠ sentBlock) :
    trimBlocks (xs ++ List.replicate p sentBlock) = xs := by
  rcases List.eq_nil_or_concat xs with rfl | ⟨ys, a, rfl⟩
  · simp only [List.nil_append, trimBlocks, List.reverse_replicate]
    rw [List.dropWhile_replicate]
    simp
  · have ha : a ≠ sentBlock := h a (by simp)
    simp only [List.concat_eq_append, trimBlocks, List.reverse_append,
      List.reverse_replicate, List.reverse_cons, List.reverse_nil, List.nil_append]
    rw [List.dropWhile_append]
    rw [List.dropWhile_replicate]
    simp only [decide_eq_true_eq, if_pos rfl, List.isEmpty_nil, if_true,
      List.singleton_append]
    rw [List.dropWhile_cons]
    simp only [decide_eq_true_eq, if_neg ha]
    simp

/-- Number of sentinel padding blocks `pad_page_bytes` appends after
`len` records (16 bytes each). -/
def padBlocksOf (len : Nat) : Nat := if len % 256 = 0 then 0 else 256 - len % 256

theorem serializeKvBytes_blocks (kv : List Rec) :
    serializeKvBytes kv =
      (kv.map encRec ++ List.replicate (padBlocksOf kv.length) sentBlock).flatten := by
  have hmap : ∀ b ∈ kv.map encRec, b.length = 16 := by
    intro b hb
    obtain ⟨r, _, rfl⟩ := List.mem_map.1 hb
    exact encRec_length r
  have hflat : kv.flatMap encRec = (kv.map encRec).flatten := List.flatMap_def kv encRec
  have hlen : (kv.flatMap encRec).length = 16 * kv.length := by
    rw [hflat, flatten_length_uniform _ hmap, List.length_map]
  rw [serializeKvBytes, padPageBytes, List.flatten_append, hflat]
  rw [← hflat, hlen]
  congr 2
  unfold padBlocksOf PAGE_SIZE
  have hmod : 16 * kv.length % 4096 = 16 * (kv.length % 256) := by
    have h4096 : (4096 : Nat) = 16 * 256 := by norm_num
    rw [h4096, Nat.mul_mod_mul_left]
  rw [hmod]
  split_ifs <;> congr 1 <;> omega

theorem blocks_total (kv : List Rec) :
    kv.length + padBlocksOf kv.length = 256 * numPages kv := by
  unfold padBlocksOf numPages
  split_ifs <;> omega

/-- The byte image written for `kv`, viewed at 16-byte block
granularity, restricted to page `i`: the encodings of the page's
records followed by sentinel blocks filling the page. -/
theorem page_blocks (kv : List Rec) (i : Nat) (hi : i < numPages kv) :
    ((kv.map encRec ++ List.replicate (padBlocksOf kv.length) sentBlock).drop
        (256 * i)).take 256 =
      (pageChunk kv i).map encRec ++
        List.replicate (256 - (pageChunk kv i).length) sentBlock := by
  have hlt : 256 * i < kv.length := by
    unfold numPages at hi
    omega
  have hmaplen : (kv.map encRec).length = kv.length := List.length_map _ _
  have htlen : (kv.drop (256 * i)).length = kv.length - 256 * i := List.length_drop _ _
  rw [List.drop_append_of_le_length (by omega)]
  rw [← List.map_drop]
  rcases le_or_lt 256 (kv.length - 256 * i) with hge | hlt2
  · -- full page: no padding blocks inside the page
    have hchunklen : (pageChunk kv i).length = 256 := by
      rw [pageChunk, List.length_take, List.length_drop]
      omega
    rw [hchunklen]
    simp only [Nat.sub_self, List.replicate_zero, List.append_nil]
    rw [List.take_append_of_le_length (by rw [List.length_map]; omega)]
    rw [pageChunk, List.map_take, List.map_drop]
  · -- last, partial page
    have hchunk : pageChunk kv i = kv.drop (256 * i) := by
      rw [pageChunk, List.take_of_length_le (by omega)]
    have hnum : numPages kv = i + 1 := by
      unfold numPages
      omega
    have hpad : padBlocksOf kv.length = 256 - (kv.drop (256 * i)).length := by
      have := blocks_total kv
      rw [hnum] at this
      omega
    rw [List.take_append_eq_append_take,
      List.take_of_length_le (by rw [List.length_map]; omega), hpad,
      List.take_replicate, hchunk]
    congr 2
    simp only [List.length_map]
    omega

/-- C3 (amended): serializing a record sequence and reading back page
`i` with `deserialize_page` returns exactly records `256·i …
min(256·(i+1), |kv|) − 1`, provided every record's components are in
`i64` range and no record is the one whose byte encoding equals the
padding sentinel (`deserialize_page` trims such a trailing record, see
the counterexample). -/
theorem serde_page_roundtrip (kv : List Rec)
    (hrange : ∀ r ∈ kv, -2 ^ 63 ≤ r.1 ∧ r.1 < 2 ^ 63 ∧ -2 ^ 63 ≤ r.2 ∧ r.2 < 2 ^ 63)
    (hsent : ∀ r ∈ kv, r ≠ sentRec) (i : Nat) (hi : i < numPages kv) :
    deserialize_page (serializeKvBytes kv) (i * PAGE_SIZE) = some (pageChunk kv i) := by
  classical
  set bs : List (List Nat) :=
    kv.map encRec ++ List.replicate (padBlocksOf kv.length) sentBlock with hbsdef
  have hbs_uniform : ∀ b ∈ bs, b.length = 16 := by
    intro b hb
    rcases List.mem_append.1 hb with hb | hb
    · obtain ⟨r, _, rfl⟩ := List.mem_map.1 hb
      exact encRec_length r
    · rw [List.eq_of_mem_replicate hb]
      exact sentBlock_length
  have hbs_len : bs.length = 256 * numPages kv := by
    rw [hbsdef, List.length_append, List.length_map, List.length_replicate]
    exact blocks_total kv
  have hser : serializeKvBytes kv = bs.flatten := serializeKvBytes_blocks kv
  have hudrop : ∀ b ∈ bs.drop (256 * i), b.length = 16 := fun b hb =>
    hbs_uniform b (List.mem_of_mem_drop hb)
  have husub : ∀ b ∈ (bs.drop (256 * i)).take 256, b.length = 16 := fun b hb =>
    hudrop b (List.mem_of_mem_take hb)
  have hslice : (bs.flatten.drop (i * PAGE_SIZE)).take PAGE_SIZE =
      ((bs.drop (256 * i)).take 256).flatten := by
    have h1 : i * PAGE_SIZE = 16 * (256 * i) := by unfold PAGE_SIZE; ring
    have h2 : (PAGE_SIZE : Nat) = 16 * 256 := by decide
    rw [h1, flatten_drop_uniform _ _ hbs_uniform, h2, flatten_take_uniform _ _ hudrop]
  have hsub_len : ((bs.drop (256 * i)).take 256).length = 256 := by
    rw [List.length_take, List.length_drop, hbs_len]
    have : i + 1 ≤ numPages kv := hi
    omega
  have hpage_len : (((bs.flatten.drop (i * PAGE_SIZE)).take PAGE_SIZE)).length =
      PAGE_SIZE := by
    rw [hslice, flatten_length_uniform _ husub, hsub_len]
    decide
  have hchunk_sub : ∀ r ∈ pageChunk kv i, r ∈ kv := fun r hr =>
    List.mem_of_mem_drop (List.mem_of_mem_take hr)
  have hchunk_ne : pageChunk kv i ≠ [] := by
    have hlt : 256 * i < kv.length := by
      unfold numPages at hi
      omega
    intro hcon
    have := congrArg List.length hcon
    rw [pageChunk, List.length_take, List.length_drop] at this
    simp only [List.length_nil] at this
    omega
  have htrim : trimBlocks ((pageChunk kv i).map encRec ++
      List.replicate (256 - (pageChunk kv i).length) sentBlock) =
      (pageChunk kv i).map encRec := by
    apply trimBlocks_append_replicate
    intro b hb
    rw [List.getLast?_map] at hb
    rcases hlast : (pageChunk kv i).getLast? with _ | r
    · rw [hlast] at hb
      simp at hb
    · rw [hlast] at hb
      simp only [Option.map_some'] at hb
      have hrmem : r ∈ pageChunk kv i := by
        have hg := List.getLast?_eq_getLast (pageChunk kv i) hchunk_ne
        rw [hg] at hlast
        have : List.getLast (pageChunk kv i) hchunk_ne = r := by
          injection hlast
        rw [← this]
        exact List.getLast_mem hchunk_ne
      obtain ⟨h1, h2, h3, h4⟩ := hrange r (hchunk_sub r hrmem)
      have hne := hsent r (hchunk_sub r hrmem)
      have hrb : encRec r = b := by injection hb
      rw [← hrb]
      exact encRec_ne_sentBlock r h1 h2 h3 h4 hne
  rw [deserialize_page, hser]
  rw [if_pos hpage_len]
  rw [hslice]
  rw [chunkList_flatten_uniform _ husub]
  rw [hbsdef, page_blocks kv i hi, htrim]
  congr 1
  have hmapped : ∀ r ∈ pageChunk kv i, (decRec ∘ encRec) r = id r := by
    intro r hr
    obtain ⟨h1, h2, h3, h4⟩ := hrange r (hchunk_sub r hr)
    exact decRec_encRec r h1 h2 h3 h4
  rw [List.map_map, List.map_congr_left hmapped, List.map_id]

theorem trimBlocks_replicate (n : Nat) :
    trimBlocks (List.replicate n sentBlock) = [] := by
  rw [trimBlocks, List.reverse_replicate, List.dropWhile_replicate]
  simp

/-- The file image written for the single record `sentRec` is one page
consisting solely of sentinel blocks. -/
theorem serialize_sentRec : serializeKvBytes [sentRec] = (List.replicate 256 sentBlock).flatten := by
  rw [serializeKvBytes_blocks]
  have h1 : ([sentRec].map encRec) = [sentBlock] := by
    simp [encRec_sentRec]
  have h2 : padBlocksOf (List.length [sentRec]) = 255 := by decide
  rw [h1, h2]
  congr 1

/-- C3 counterexample: the record sequence `[sentRec]` (whose single
record encodes to exactly the padding sentinel block) serializes to a
page that `deserialize_page` trims to the empty record list, so the
round trip does not return the written records. -/
theorem serde_page_roundtrip_cex :
    deserialize_page (serializeKvBytes [sentRec]) 0 ≠ some (pageChunk [sentRec] 0) := by
  have huni : ∀ b ∈ List.replicate 256 sentBlock, b.length = 16 := by
    intro b hb
    rw [List.eq_of_mem_replicate hb]
    exact sentBlock_length
  have hlen : (List.replicate 256 sentBlock).flatten.length = 4096 := by
    rw [flatten_length_uniform _ huni, List.length_replicate]
  have hbytes : ((List.replicate 256 sentBlock).flatten.drop 0).take PAGE_SIZE =
      (List.replicate 256 sentBlock).flatten := by
    rw [List.drop_zero]
    apply List.take_of_length_le
    rw [hlen]
    decide
  rw [deserialize_page, serialize_sentRec, hbytes]
  rw [if_pos (hlen.trans (by decide))]
  rw [chunkList_flatten_uniform _ huni, trimBlocks_replicate]
  have h2 : pageChunk [sentRec] 0 = [sentRec] := rfl
  rw [h2]
  intro hcon
  injection hcon with h3
  exact (List.cons_ne_nil _ _) h3.symm

/-- Witness for C3 (amended) at the record sequence
`[(1,2), (3,4), (5,6)]`, page 0. -/
theorem serde_page_roundtrip_witness :
    (∀ r ∈ ([(1, 2), (3, 4), (5, 6)] : List Rec),
        -2 ^ 63 ≤ r.1 ∧ r.1 < 2 ^ 63 ∧ -2 ^ 63 ≤ r.2 ∧ r.2 < 2 ^ 63) ∧
      (∀ r ∈ ([(1, 2), (3, 4), (5, 6)] : List Rec), r ≠ sentRec) ∧
      0 < numPages [(1, 2), (3, 4), (5, 6)] ∧
      deserialize_page (serializeKvBytes [(1, 2), (3, 4), (5, 6)]) (0 * PAGE_SIZE) =
        some (pageChunk [(1, 2), (3, 4), (5, 6)] 0) :=
  ⟨by decide, by decide, by decide,
    serde_page_roundtrip _ (by decide) (by decide) 0 (by decide)⟩

/-! ### Map model lemmas -/

theorem mLookup_cons (p : Rec) (m : List Rec) (k : Int) :
    mLookup (p :: m) k = if p.1 = k then some p.2 else mLookup m k := rfl

theorem mLookup_filter_ne (m : List Rec) (k k' : Int) (h : k' ≠ k) :
    mLookup (m.filter (fun p => p.1 != k)) k' = mLookup m k' := by
  induction m with
  | nil => rfl
  | cons p m ih =>
    by_cases hp : p.1 = k
    · rw [List.filter_cons_of_neg (by simp [hp]), mLookup_cons, if_neg (by omega), ih]
    · rw [List.filter_cons_of_pos (by simp [hp]), mLookup_cons, mLookup_cons, ih]

theorem mLookup_mInsert (m : List Rec) (k v k' : Int) :
    mLookup (mInsert m k v) k' = if k' = k then some v else mLookup m k' := by
  rw [mInsert, mLookup_cons]
  by_cases h : k' = k
  · rw [if_pos h, if_pos (by omega)]
  · rw [if_neg (by omega), if_neg h, mLookup_filter_ne m k k' h]

theorem mLookup_mOrInsert (m : List Rec) (k v k' : Int) :
    mLookup (mOrInsert m k v) k' =
      if (mLookup m k).isSome then mLookup m k'
      else if k' = k then some v else mLookup m k' := by
  rw [mOrInsert]
  by_cases h : (mLookup m k).isSome
  · simp [h]
  · rw [if_neg h, if_neg h, mLookup_cons]
    by_cases h2 : k' = k
    · rw [if_pos h2, if_pos (by omega)]
    · rw [if_neg h2, if_neg (by omega)]

/-! ### Memtable lemmas (claim C6) -/

theorem getValue_some_mem (t : AVLTreeNode) (k v : Int) (h : getValue t k = some v) :
    k ∈ treeKeys t := by
  induction t with
  | nil => simp [getValue] at h
  | node tk tv th l r ihl ihr =>
    rw [getValue] at h
    rw [treeKeys]
    by_cases h1 : k < tk
    · rw [if_pos h1] at h
      exact List.mem_append.2 (Or.inl (ihl h))
    · rw [if_neg h1] at h
      by_cases h2 : k > tk
      · rw [if_pos h2] at h
        exact List.mem_append.2 (Or.inr (List.mem_cons.2 (Or.inr (ihr h))))
      · have : k = tk := by omega
        exact List.mem_append.2 (Or.inr (List.mem_cons.2 (Or.inl this)))

theorem orderedB_node {k v : Int} {h : Nat} {l r : AVLTreeNode}
    (ho : orderedB (.node k v h l r) = true) :
    orderedB l = true ∧ orderedB r = true ∧
      (∀ x ∈ treeKeys l, x < k) ∧ (∀ x ∈ treeKeys r, k < x) := by
  rw [orderedB] at ho
  simp only [Bool.and_eq_true, List.all_eq_true, decide_eq_true_eq] at ho
  exact ⟨ho.1.1.1, ho.1.1.2, ho.1.2, ho.2⟩

/-- The `scan_tree` recursion (tree.rs) over a tree satisfying the BST
ordering: every in-range tree entry overwrites the output map; all
other bindings of the output map are untouched. -/
theorem scanTree_lookup (t : AVLTreeNode) (ht : orderedB t = true) (lo hi : Int)
    (out : List Rec) (k' : Int) :
    mLookup (scanTree t lo hi out) k' =
      if lo ≤ k' ∧ k' ≤ hi then (getValue t k').or (mLookup out k')
      else mLookup out k' := by
  induction t generalizing out with
  | nil =>
    rw [scanTree, getValue]
    split <;> simp
  | node k v h l r ihl ihr =>
    obtain ⟨hl, hr, hkl, hkr⟩ := orderedB_node ht
    have hlnone : ∀ x : Int, ¬x < k → getValue l x = none := by
      intro x hx
      cases hg : getValue l x with
      | none => rfl
      | some w => exact absurd (hkl x (getValue_some_mem l x w hg)) hx
    have hrnone : ∀ x : Int, ¬k < x → getValue r x = none := by
      intro x hx
      cases hg : getValue r x with
      | none => rfl
      | some w => exact absurd (hkr x (getValue_some_mem r x w hg)) hx
    rw [scanTree]
    set out1 : List Rec := if lo < k then scanTree l lo hi out else out with hout1def
    have hA : mLookup out1 k' =
        if lo < k then
          (if lo ≤ k' ∧ k' ≤ hi then (getValue l k').or (mLookup out k')
            else mLookup out k')
        else mLookup out k' := by
      rw [hout1def]
      by_cases hlo : lo < k
      · rw [if_pos hlo, if_pos hlo, ihl hl]
      · rw [if_neg hlo, if_neg hlo]
    have hout2 : ∀ x : Int,
        mLookup (if lo ≤ k ∧ k ≤ hi then mInsert out1 k v else out1) x =
          (if x = k ∧ lo ≤ k ∧ k ≤ hi then some v else none).or (mLookup out1 x) := by
      intro x
      by_cases hc : lo ≤ k ∧ k ≤ hi
      · rw [if_pos hc, mLookup_mInsert]
        by_cases hx : x = k
        · rw [if_pos hx, if_pos ⟨hx, hc⟩]
          rfl
        · rw [if_neg hx, if_neg (by tauto)]
          rfl
      · rw [if_neg hc, if_neg (by tauto)]
        rfl
    rw [ihr hr, hout2]
    by_cases hk' : lo ≤ k' ∧ k' ≤ hi
    · rw [if_pos hk', if_pos hk']
      rcases lt_trichotomy k' k with hlt | heq | hgt
      · -- k' lies left of the node key
        have hgv : getValue (AVLTreeNode.node k v h l r) k' = getValue l k' := by
          rw [getValue, if_pos hlt]
        have hmid : (if k' = k ∧ lo ≤ k ∧ k ≤ hi then some v else (none : Option Int)) =
            none := by
          rw [if_neg (by omega)]
        rw [hgv, hmid, hrnone k' (by omega), hA, if_pos (by omega), if_pos hk']
        simp
      · -- k' is the node's own key
        have hgv : getValue (AVLTreeNode.node k v h l r) k' = some v := by
          rw [getValue, if_neg (by omega), if_neg (by omega)]
        have hmid : (if k' = k ∧ lo ≤ k ∧ k ≤ hi then some v else (none : Option Int)) =
            some v := by
          rw [if_pos ⟨heq, by omega, by omega⟩]
        rw [hgv, hmid, hrnone k' (by omega)]
        simp
      · -- k' lies right of the node key
        have hgv : getValue (AVLTreeNode.node k v h l r) k' = getValue r k' := by
          rw [getValue, if_neg (by omega), if_pos hgt]
        have hmid : (if k' = k ∧ lo ≤ k ∧ k ≤ hi then some v else (none : Option Int)) =
            none := by
          rw [if_neg (by omega)]
        rw [hgv, hmid]
        cases hg : getValue r k' with
        | some w => simp
        | none =>
          simp only [Option.none_or]
          rw [hA]
          by_cases hlo : lo < k
          · rw [if_pos hlo, if_pos hk', hlnone k' (by omega)]
            simp
          · rw [if_neg hlo]
    · rw [if_neg hk', if_neg hk']
      have hmid : (if k' = k ∧ lo ≤ k ∧ k ≤ hi then some v else (none : Option Int)) =
          none := by
        rw [if_neg (by omega)]
      rw [hmid]
      simp only [Option.none_or]
      rw [hA]
      by_cases hlo : lo < k
      · rw [if_pos hlo, if_neg hk']
      · rw [if_neg hlo]

/-- C6 (amended): for every memtable tree satisfying the BST ordering
invariant (all trees built by `put` satisfy it), `scan(lo, hi, out)`
inserts every tree entry with `lo ≤ k ≤ hi` into `out` unconditionally
— overwriting a binding already present (the source uses
`HashMap::insert`, not insert-if-absent) — and leaves bindings at all
other keys unchanged. -/
theorem avl_scan_lookup (t : AVLTree) (ht : orderedB t.root = true) (lo hi : Int)
    (out : List Rec) (k : Int) :
    mLookup (t.scan lo hi out) k =
      if lo ≤ k ∧ k ≤ hi then (t.get k).or (mLookup out k) else mLookup out k :=
  scanTree_lookup t.root ht lo hi out k

/-- Witness for C6 (amended): the memtable `{1 ↦ 5}` scanned over
`[0, 2]` into the pre-populated map `{1 ↦ 99}`. -/
theorem avl_scan_lookup_witness :
    orderedB ((AVLTree.new.put 1 5).root) = true ∧
      mLookup ((AVLTree.new.put 1 5).scan 0 2 [(1, 99)]) 1 =
        (if (0 : Int) ≤ 1 ∧ (1 : Int) ≤ 2 then
          ((AVLTree.new.put 1 5).get 1).or (mLookup [(1, 99)] 1)
        else mLookup [(1, 99)] 1) :=
  ⟨by decide, avl_scan_lookup _ (by decide) 0 2 _ 1⟩

/-- C6 counterexample: scanning the memtable `{1 ↦ 5}` over `[0, 2]`
into a map that already binds key 1 overwrites that binding (the claim
says bindings already present are left unchanged). -/
theorem avl_scan_cex :
    mLookup ((AVLTree.new.put 1 5).scan 0 2 [(1, 99)]) 1 ≠ mLookup [(1, 99)] 1 := by
  decide

/-! ### Claim C2: scan exactness (code bug) -/

/-- C2 (code bug): with the append-only backend, `memtable_size = 1`,
after `put(2,20); put(0,0); put(1,10)` the scan `scan(0, 2)` omits the
live pair `(2, 20)` even though `get(2)` returns `20`: after the two
newest files the dedup map reaches size `end − start = 2` and
`scan_ssts` breaks before consulting the oldest file. -/
theorem scan_ssts_early_exit_bug :
    (do
      let c1 ← Client.put aoOps aoClient1 2 20
      let c2 ← Client.put aoOps c1 0 0
      let c3 ← Client.put aoOps c2 1 10
      let res ← Client.scanC aoOps c3 0 2
      some (mLookup res 2, Client.get aoOps c3 2)) =
      some (none, some (some 20)) := by
  decide

/-! ### Claim C9: memtable drain threshold -/

/-- C9 (amended): after `Client::put` completes, the memtable holds
strictly fewer than `memtable_size` records (provided
`memtable_size ≥ 1`); only `put` performs the threshold check —
`update` and `delete` insert directly into the memtable (see the
counterexample). -/
theorem client_put_memtable_bound {σ : Type} (ds : DiskStorageOps σ) (c : Client σ)
    (k v : Int) (c' : Client σ) (h1 : 1 ≤ c.memtableSize)
    (h2 : Client.put ds c k v = some c') : c'.memtable.size < c.memtableSize := by
  rw [Client.put] at h2
  by_cases hc : (c.memtable.put k v).size ≥ c.memtableSize
  · rw [if_pos hc] at h2
    rw [Client.flushC] at h2
    cases hf : ds.flush { c with memtable := c.memtable.put k v }.storage
        { c with memtable := c.memtable.put k v }.sstCount
        { c with memtable := c.memtable.put k v }.memtable.scan_all with
    | none =>
      rw [hf] at h2
      simp at h2
    | some st =>
      rw [hf] at h2
      simp only [Option.map_some'] at h2
      cases h2
      simpa [AVLTree.new] using h1
  · rw [if_neg hc] at h2
    cases h2
    show (c.memtable.put k v).size < c.memtableSize
    omega

/-- Witness for C9 (amended): `put(2, 20)` on a fresh append-only
client with `memtable_size = 1`. -/
theorem client_put_memtable_bound_witness :
    1 ≤ aoClient1.memtableSize ∧
      Client.put aoOps aoClient1 2 20 = some aoClient1P ∧
      aoClient1P.memtable.size < aoClient1.memtableSize :=
  ⟨by decide, by decide,
    client_put_memtable_bound aoOps aoClient1 2 20 aoClient1P (by decide) (by decide)⟩

/-- C9 counterexample: `Client::delete` performs no threshold check,
so on a client with `memtable_size = 1` a single `delete` leaves the
memtable holding `memtable_size` records — not strictly fewer. -/
theorem client_delete_no_drain_cex :
    ¬((Client.delete aoClient1 0).memtable.size < aoClient1.memtableSize) := by
  decide

/-! ### Claim C7: capacity-0 buffer pool -/

/-- C7 (amended): on a `BufferPool` of capacity 0, every `find_page`
call misses the cache (`search_buffer` short-circuits on `size == 0`),
but the insert step is NOT bypassed: `insert` sees `curr_size ==
size`, `run_eviction` finds the LRU empty and returns `false`, and the
call dies on the "Eviction failed when attempting overflow insert!"
panic. The cache stays empty only because the process is gone. -/
theorem find_page_capacity_zero (h : BKey → Nat) (disk : BKey → List Rec)
    (key : BKey) : BufferPool.find_page h disk (BufferPool.new 0) key = none := rfl

/-- C7 counterexample: a concrete capacity-0 `find_page` call is fatal
(`none`) instead of returning the page loaded from disk. -/
theorem find_page_capacity_zero_cex :
    BufferPool.find_page (fun _ => 0) (fun _ => [(1, 1)]) (BufferPool.new 0)
      ("output_0.bin", 0) = none := rfl

/-! ### Claim C8: LRU eviction keeps exactly the most recent pages -/

theorem searchBufferChain_none (key : BKey) (chain : List (BKey × List Rec))
    (hk : key ∉ chain.map Prod.fst) : BufferPool.searchBufferChain key chain = none := by
  induction chain with
  | nil => rfl
  | cons e rest ih =>
    rw [BufferPool.searchBufferChain]
    rw [if_neg (by simp at hk; intro hcon; exact hk.1 hcon.symm)]
    exact ih (by simp at hk ⊢; exact hk.2)

theorem eraseP_key_not_mem (k0 : BKey) (chain : List (BKey × List Rec))
    (hnd : (chain.map Prod.fst).Nodup) :
    k0 ∉ (chain.eraseP (fun e => e.1 == k0)).map Prod.fst := by
  induction chain with
  | nil => simp
  | cons e rest ih =>
    simp only [List.map_cons, List.nodup_cons] at hnd
    by_cases he : e.1 = k0
    · rw [List.eraseP_cons_of_pos (by simp [he])]
      rw [← he]
      exact hnd.1
    · rw [List.eraseP_cons_of_neg (by simp [he])]
      simp only [List.map_cons, List.mem_cons]
      rintro (h1 | h2)
      · exact he h1.symm
      · exact ih hnd.2 h2

theorem mem_map_fst_eraseP_of_ne (x k0 : BKey) (chain : List (BKey × List Rec))
    (hne : x ≠ k0) (hx : x ∈ chain.map Prod.fst) :
    x ∈ (chain.eraseP (fun e => e.1 == k0)).map Prod.fst := by
  induction chain with
  | nil => simp at hx
  | cons e rest ih =>
    by_cases he : e.1 = k0
    · rw [List.eraseP_cons_of_pos (by simp [he])]
      simp only [List.map_cons, List.mem_cons] at hx
      rcases hx with h1 | h2
      · exact absurd (h1.trans he) hne
      · exact h2
    · rw [List.eraseP_cons_of_neg (by simp [he])]
      simp only [List.map_cons, List.mem_cons] at hx ⊢
      rcases hx with h1 | h2
      · exact Or.inl h1
      · exact Or.inr (ih h2)

theorem mem_cachedKeys_iff (h : BKey → Nat) (C : Nat) (done : List BKey)
    (p : BufferPool) (hInv : PoolInv h C done p) (k : BKey) :
    k ∈ BufferPool.cachedKeys p ↔ k ∈ p.lru := by
  obtain ⟨hs, hl, hcs, hbuck, hlru, hnd⟩ := hInv
  constructor
  · intro hk
    rw [BufferPool.cachedKeys] at hk
    simp only [List.mem_flatMap, List.mem_range, List.mem_map] at hk
    obtain ⟨i, _, e, he, rfl⟩ := hk
    exact (hbuck i e he).1
  · intro hk
    have := hlru k hk
    rw [BufferPool.cachedKeys]
    simp only [List.mem_flatMap, List.mem_range, List.mem_map]
    obtain ⟨e, he, rfl⟩ := List.mem_map.1 this
    have hi := (hbuck _ e he).2
    exact ⟨custom_hash h e.1 C, by omega, e, by rwa [← hi.1] at he, rfl⟩

/-- One `find_page` request for a never-seen page: it misses, loads
from disk, inserts (evicting the LRU front when full), and the pool
invariant advances by one request. -/
theorem poolInv_step (h : BKey → Nat) (disk : BKey → List Rec) {C : Nat}
    (hC : 0 < C) (done : List BKey) (k : BKey) (p : BufferPool)
    (hInv : PoolInv h C done p) (hdnd : done.Nodup) (hk : k ∉ done) :
    ∃ p', BufferPool.find_page h disk p k = some (disk k, p') ∧
      PoolInv h C (done ++ [k]) p' := by
  obtain ⟨hs, hl, hcs, hbuck, hlru, hnd⟩ := hInv
  set N := done.length with hN
  have hlsub : ∀ x ∈ p.lru, x ∈ done := by
    rw [hl]
    intro x hx
    exact List.mem_of_mem_drop hx
  have hlnodup : p.lru.Nodup := by
    rw [hl]
    exact hdnd.sublist (List.drop_sublist _ _)
  have hllen : p.lru.length = N - (N - C) := by
    rw [hl, List.length_drop]
  have hmiss : BufferPool.search_buffer p h k = none := by
    rw [BufferPool.search_buffer, if_neg (by omega)]
    apply searchBufferChain_none
    intro hcon
    obtain ⟨e, he, rfl⟩ := List.mem_map.1 hcon
    exact hk (hlsub _ (hbuck _ e he).1)
  have hfbp : BufferPool.find_buffer_page p h k = none := by
    rw [BufferPool.find_buffer_page, hmiss]
  by_cases hfull : p.currSize = p.size
  · -- pool at capacity: evict the LRU front, then insert
    have hlenC : p.lru.length = C := by omega
    have hNC : C ≤ N := by omega
    cases hcase : p.lru with
    | nil =>
      rw [hcase] at hlenC
      simp at hlenC
      omega
    | cons k0 rest =>
      have hk0mem : k0 ∈ p.lru := by rw [hcase]; simp
      have hrest : rest = done.drop (N - C + 1) := by
        have := congrArg List.tail hl
        rw [hcase] at this
        simpa [List.tail_drop] using this
      refine
        ⟨{ size := p.size
           currSize := p.currSize - 1 + 1
           lru := rest ++ [k]
           buffer := fun j =>
             if j = custom_hash h k p.size then
               (k, disk k) ::
                 (if j = custom_hash h k0 p.size then
                   (p.buffer (custom_hash h k0 p.size)).eraseP (fun e => e.1 == k0)
                 else p.buffer j)
             else
               if j = custom_hash h k0 p.size then
                 (p.buffer (custom_hash h k0 p.size)).eraseP (fun e => e.1 == k0)
               else p.buffer j }, ?_, ?_⟩
      · rw [BufferPool.find_page, hfbp]
        show (BufferPool.insert p h k (disk k)).map (fun q => (disk k, q)) = _
        rw [BufferPool.insert, BufferPool.evictIfFull]
        rw [if_pos hfull, BufferPool.run_eviction, hcase]
        rfl
      · constructor
        · exact hs
        constructor
        · -- LRU: drop the front, append the new key
          show rest ++ [k] = (done ++ [k]).drop ((done ++ [k]).length - C)
          rw [List.length_append, List.length_cons, List.length_nil]
          have harith : done.length + 1 - C = (N - C + 1) := by omega
          rw [harith, List.drop_append_of_le_length (by omega), hrest]
        constructor
        · -- currSize
          show p.currSize - 1 + 1 = (rest ++ [k]).length
          have : rest.length = C - 1 := by
            rw [hcase] at hlenC
            simp at hlenC
            omega
          rw [List.length_append]
          simp only [List.length_cons, List.length_nil]
          omega
        constructor
        · -- every chain entry: key LRU-resident, in its own bucket
          intro i e he
          simp only at he
          by_cases hik : i = custom_hash h k p.size
          · rw [if_pos hik] at he
            rcases List.mem_cons.1 he with rfl | he2
            · refine ⟨by simp, ?_, ?_⟩
              · rw [hik, hs]
              · rw [hik, hs]
                exact Nat.mod_lt _ hC
            · -- an old entry surviving in this bucket
              by_cases hi0 : i = custom_hash h k0 p.size
              · rw [if_pos hi0] at he2
                have hsub : List.Sublist
                  ((p.buffer (custom_hash h k0 p.size)).eraseP (fun e => e.1 == k0))
                  (p.buffer (custom_hash h k0 p.size)) := List.eraseP_sublist _
                have he3 := hsub.subset he2
                obtain ⟨hm, hh, hlt⟩ := hbuck _ e he3
                have hek0 : e.1 ≠ k0 := by
                  intro hcon
                  exact eraseP_key_not_mem k0 (p.buffer (custom_hash h k0 p.size))
                    (hnd _) (List.mem_map.2 ⟨e, he2, hcon⟩)
                rw [hcase] at hm
                rcases List.mem_cons.1 hm with hcon | hm2
                · exact absurd hcon hek0
                · exact ⟨by simp [hm2], by rw [hi0]; exact hh, by omega⟩
              · rw [if_neg hi0] at he2
                obtain ⟨hm, hh, hlt⟩ := hbuck _ e he2
                have hek0 : e.1 ≠ k0 := by
                  intro hcon
                  apply hi0
                  rw [← hh, hcon, hs]
                rw [hcase] at hm
                rcases List.mem_cons.1 hm with hcon | hm2
                · exact absurd hcon hek0
                · exact ⟨by simp [hm2], hh, hlt⟩
          · rw [if_neg hik] at he
            by_cases hi0 : i = custom_hash h k0 p.size
            · rw [if_pos hi0] at he
              have hsub : List.Sublist
                  ((p.buffer (custom_hash h k0 p.size)).eraseP (fun e => e.1 == k0))
                  (p.buffer (custom_hash h k0 p.size)) := List.eraseP_sublist _
              have he3 := hsub.subset he
              obtain ⟨hm, hh, hlt⟩ := hbuck _ e he3
              have hek0 : e.1 ≠ k0 := by
                intro hcon
                exact eraseP_key_not_mem k0 (p.buffer (custom_hash h k0 p.size))
                  (hnd _) (List.mem_map.2 ⟨e, he, hcon⟩)
              rw [hcase] at hm
              rcases List.mem_cons.1 hm with hcon | hm2
              · exact absurd hcon hek0
              · exact ⟨by simp [hm2], by rw [hi0]; exact hh, by omega⟩
            · rw [if_neg hi0] at he
              obtain ⟨hm, hh, hlt⟩ := hbuck _ e he
              have hek0 : e.1 ≠ k0 := by
                intro hcon
                apply hi0
                rw [← hh, hcon, hs]
              rw [hcase] at hm
              rcases List.mem_cons.1 hm with hcon | hm2
              · exact absurd hcon hek0
              · exact ⟨by simp [hm2], hh, hlt⟩
        constructor
        · -- every LRU key is found in its bucket
          intro x hx
          simp only
          rcases List.mem_append.1 hx with hx | hx
          · -- an old key, still cached
            have hxlru : x ∈ p.lru := by rw [hcase]; simp [hx]
            have hxne0 : x ≠ k0 := by
              intro hcon
              rw [hcase] at hlnodup
              rw [hcon] at hx
              exact (List.nodup_cons.1 hlnodup).1 hx
            have hxnek : x ≠ k := by
              intro hcon
              exact hk (hcon ▸ hlsub _ hxlru)
            have hx1 := hlru x hxlru
            simp only [hs]
            by_cases hxi : custom_hash h x C = custom_hash h k C
            · rw [if_pos hxi]
              simp only [List.map_cons, List.mem_cons]
              right
              by_cases hxi0 : custom_hash h x C = custom_hash h k0 C
              · rw [if_pos hxi0, ← hxi0]
                exact mem_map_fst_eraseP_of_ne x k0 _ hxne0 hx1
              · rw [if_neg hxi0]
                exact hx1
            · rw [if_neg hxi]
              by_cases hxi0 : custom_hash h x C = custom_hash h k0 C
              · rw [if_pos hxi0, ← hxi0]
                exact mem_map_fst_eraseP_of_ne x k0 _ hxne0 hx1
              · rw [if_neg hxi0]
                exact hx1
          · -- x = k, the freshly inserted key
            simp only [List.mem_singleton] at hx
            subst hx
            simp [hs]
        · -- chains keep distinct keys
          intro i
          simp only
          by_cases hik : i = custom_hash h k p.size
          · rw [if_pos hik]
            simp only [List.map_cons, List.nodup_cons]
            constructor
            · intro hcon
              by_cases hi0 : i = custom_hash h k0 p.size
              · rw [if_pos hi0] at hcon
                have hsub : List.Sublist
                  ((p.buffer (custom_hash h k0 p.size)).eraseP (fun e => e.1 == k0))
                  (p.buffer (custom_hash h k0 p.size)) := List.eraseP_sublist _
                have hsub2 := hsub.map Prod.fst
                have := hsub2.subset hcon
                obtain ⟨e, he, rfl⟩ := List.mem_map.1 this
                exact hk (hlsub _ (hbuck _ e he).1)
              · rw [if_neg hi0] at hcon
                obtain ⟨e, he, rfl⟩ := List.mem_map.1 hcon
                exact hk (hlsub _ (hbuck _ e he).1)
            · by_cases hi0 : i = custom_hash h k0 p.size
              · rw [if_pos hi0]
                exact ((List.eraseP_sublist _).map Prod.fst).nodup (hnd _)
              · rw [if_neg hi0]
                exact hnd i
          · rw [if_neg hik]
            by_cases hi0 : i = custom_hash h k0 p.size
            · rw [if_pos hi0]
              exact ((List.eraseP_sublist _).map Prod.fst).nodup (hnd _)
            · rw [if_neg hi0]
              exact hnd i
  · -- pool below capacity: plain insert
    have hlt : N < C := by omega
    have hlru_done : p.lru = done := by
      rw [hl]
      have : N - C = 0 := by omega
      rw [this, List.drop_zero]
    refine
      ⟨{ size := p.size
         currSize := p.currSize + 1
         lru := p.lru ++ [k]
         buffer := fun j =>
           if j = custom_hash h k p.size then (k, disk k) :: p.buffer j
           else p.buffer j }, ?_, ?_⟩
    · rw [BufferPool.find_page, hfbp]
      show (BufferPool.insert p h k (disk k)).map (fun q => (disk k, q)) = _
      rw [BufferPool.insert, BufferPool.evictIfFull]
      rw [if_neg hfull]
      rfl
    · constructor
      · exact hs
      constructor
      · show p.lru ++ [k] = (done ++ [k]).drop ((done ++ [k]).length - C)
        rw [List.length_append, List.length_cons, List.length_nil]
        have : done.length + 1 - C = 0 := by omega
        rw [this, List.drop_zero, hlru_done]
      constructor
      · show p.currSize + 1 = (p.lru ++ [k]).length
        rw [List.length_append]
        simp only [List.length_cons, List.length_nil]
        omega
      constructor
      · intro i e he
        simp only at he
        by_cases hik : i = custom_hash h k p.size
        · rw [if_pos hik] at he
          rcases List.mem_cons.1 he with rfl | he2
          · exact ⟨by simp, by rw [hik, hs], by rw [hik, hs]; exact Nat.mod_lt _ hC⟩
          · obtain ⟨hm, hh, hlt2⟩ := hbuck _ e he2
            exact ⟨by simp [hm], hh, hlt2⟩
        · rw [if_neg hik] at he
          obtain ⟨hm, hh, hlt2⟩ := hbuck _ e he
          exact ⟨by simp [hm], hh, hlt2⟩
      constructor
      · intro x hx
        simp only
        rcases List.mem_append.1 hx with hx | hx
        · have hxnek : x ≠ k := by
            intro hcon
            exact hk (hcon ▸ hlsub _ hx)
          have hx1 := hlru x hx
          simp only [hs]
          by_cases hxi : custom_hash h x C = custom_hash h k C
          · rw [if_pos hxi]
            simp only [List.map_cons, List.mem_cons]
            right
            exact hx1
          · rw [if_neg hxi]
            exact hx1
        · simp only [List.mem_singleton] at hx
          subst hx
          simp [hs]
      · intro i
        simp only
        by_cases hik : i = custom_hash h k p.size
        · rw [if_pos hik]
          simp only [List.map_cons, List.nodup_cons]
          refine ⟨?_, hnd i⟩
          intro hcon
          obtain ⟨e, he, rfl⟩ := List.mem_map.1 hcon
          exact hk (hlsub _ (hbuck _ e he).1)
        · rw [if_neg hik]
          exact hnd i

/-- Folding `find_page` over distinct never-seen keys preserves the
pool invariant. -/
theorem findPages_inv (h : BKey → Nat) (disk : BKey → List Rec) {C : Nat}
    (hC : 0 < C) :
    ∀ (rest done : List BKey) (p : BufferPool), PoolInv h C done p →
      (done ++ rest).Nodup →
      ∃ p', BufferPool.findPages h disk p rest = some p' ∧
        PoolInv h C (done ++ rest) p' := by
  intro rest
  induction rest with
  | nil =>
    intro done p hInv _
    exact ⟨p, rfl, by simpa using hInv⟩
  | cons k rest ih =>
    intro done p hInv hnd
    have hdnd : done.Nodup := (List.nodup_append.1 hnd).1
    have hk : k ∉ done := by
      have := (List.nodup_append.1 hnd).2.2
      intro hcon
      exact this hcon (by simp)
    obtain ⟨p1, hfp, hInv1⟩ := poolInv_step h disk hC done k p hInv hdnd hk
    have hnd2 : ((done ++ [k]) ++ rest).Nodup := by
      rw [List.append_assoc]
      simpa using hnd
    obtain ⟨p', hrest, hInv'⟩ := ih (done ++ [k]) p1 hInv1 hnd2
    refine ⟨p', ?_, ?_⟩
    · rw [BufferPool.findPages, hfp]
      exact hrest
    · rw [List.append_assoc] at hInv'
      simpa using hInv'

/-- C8: on a `BufferPool` of capacity `C > 0`, after `N > C`
`find_page` requests for pairwise-distinct pages `p1 … pN` (in that
order, no other requests), the pages resident in the cache are exactly
the last `C` requested ones, `p(N−C+1) … pN`. -/
theorem lru_cache_exact (h : BKey → Nat) (disk : BKey → List Rec) (C : Nat)
    (ks : List BKey) (hC : 0 < C) (hnd : ks.Nodup) (hlen : C < ks.length) :
    ∃ p', BufferPool.findPages h disk (BufferPool.new C) ks = some p' ∧
      ∀ k, k ∈ BufferPool.cachedKeys p' ↔ k ∈ ks.drop (ks.length - C) := by
  have hInv0 : PoolInv h C [] (BufferPool.new C) := by
    refine ⟨rfl, by simp [BufferPool.new], rfl, ?_, ?_, ?_⟩
    · intro i e he
      simp [BufferPool.new] at he
    · intro k hk
      simp [BufferPool.new] at hk
    · intro i
      simp [BufferPool.new]
  obtain ⟨p', hrun, hInv⟩ := findPages_inv h disk hC ks [] (BufferPool.new C) hInv0
    (by simpa using hnd)
  refine ⟨p', hrun, ?_⟩
  intro k
  rw [mem_cachedKeys_iff h C ks p' (by simpa using hInv) k]
  have hlru : p'.lru = ks.drop (ks.length - C) := by
    have := (by simpa using hInv : PoolInv h C ks p').2.1
    simpa using this
  rw [hlru]

/-- Witness for C8: capacity 1, two distinct page requests; the cache
ends up holding exactly the second page. -/
theorem lru_cache_exact_witness :
    0 < 1 ∧ ([("a", 0), ("b", 4096)] : List BKey).Nodup ∧
      1 < ([("a", 0), ("b", 4096)] : List BKey).length ∧
      ∃ p', BufferPool.findPages (fun _ => 0) (fun _ => []) (BufferPool.new 1)
          [("a", 0), ("b", 4096)] = some p' ∧
        ∀ k, k ∈ BufferPool.cachedKeys p' ↔
          k ∈ ([("a", 0), ("b", 4096)] : List BKey).drop
            (([("a", 0), ("b", 4096)] : List BKey).length - 1) :=
  ⟨by decide, by decide, by decide,
    lru_cache_exact (fun _ => 0) (fun _ => []) 1 [("a", 0), ("b", 4096)]
      (by decide) (by decide) (by decide)⟩

/-- C10: `LSMTree::flush` with an empty record vector returns before
touching anything: `tree_size`, the filters, the files and the merge
cascade are all untouched, for every LSM state. -/
theorem lsm_flush_empty_noop (hf : Nat → Int → Nat) (st : LSMTree) :
    lsmFlush hf st [] = some st := rfl

/-- C1: the round trip fails on the very first key ever written.
Against a fresh LSM backend with `memtable_size = 1`, `put(0, 0)`
flushes a single-page run, for which
`part3_create_b_tree_internal_file` creates no internal-index file;
the subsequent `get(0)` calls `part3_search_b_tree_sst`, whose opening
`metadata` call on the missing internal file panics (modelled `none`)
instead of returning the value `0` just written. -/
theorem lsm_put_get_crash_bug :
    ((Client.put (lsmOps hfAbs) (lsmClient 1) 0 0).bind fun c1 =>
      Client.get (lsmOps hfAbs) c1 0) = none := by
  rfl

/-- C5: `LSMTree::get` consults `self.filters[0]` — a slot never
populated by any flush or merge — rather than level `L`'s own filter.
After flushing `[(5, 5)]` into a fresh `memtable_size = 1` LSM tree,
level 1's own Bloom filter reports a certain miss for key `7` (first
component `false`), yet the level-skip condition of `get` does not
skip level 1 for key `7` (second component `false`), because the
filter it reads, `filters[0]`, is `None`. -/
theorem lsm_get_wrong_filter_bug :
    (lsmFlush hfAbs (LSMTree.new 1) [(5, 5)]).map (fun st =>
      ((st.filters 1).elim true fun a => Bitmap.check_key hfAbs a 7,
        lsmSkipLevel hfAbs st 1 7)) = some (false, false) := by
  rfl

